import Mathlib

/-!
Verification development for the v9 column-store / entity engine.

Each Rust structure needed by the verified properties is shallowly embedded:
pure functions become Lean functions, panics become `Option`/`Except` failures,
machine integers become `Nat` with the per-table sentinel `LAST` passed as an
explicit parameter `L` (so `step(1)` is `(x + 1) % (L + 1)`, the two's
complement wrap of the raw integer type whose maximal value is `L`).
-/

namespace V9

/-- Access mode of a lock request (src/lock.rs uses `Access` from the prelude). -/
inductive Access where
  | read
  | write
deriving DecidableEq, Repr

/-- State of one `Locked` slot (src/lock.rs `LockState`).  Thread ids are `Nat`. -/
inductive LockState where
  | open
  | write (tid : Nat)
  | read (n : Nat)
  | poison
deriving DecidableEq, Repr

namespace LockState

/-- Embedding of `Locked::can` (src/lock.rs:40-51).  `tid` is the calling
thread.  `none` models the `panic!("thread deadlock")` arm; `some b` says
whether the access can be granted now. -/
def can (s : LockState) (access : Access) (tid : Nat) : Option Bool :=
  match s, access with
  | .open, _ => some true
  | .read _, .read => some true
  | .read _, .write => some false
  | .write orig, _ => if orig = tid then none else some false
  | .poison, _ => some false

/-- Embedding of `Locked::acquire` (src/lock.rs:52-71).  `tid` is the calling
thread; `none` models a panic (`WR`/`WW`/`RW` multi-lock or poisoned slot). -/
def acquire (s : LockState) (access : Access) (tid : Nat) : Option LockState :=
  match s, access with
  | .write _, .read => none
  | .write _, .write => none
  | .read _, .write => none
  | .read n, .read => some (.read (n + 1))
  | .open, .read => some (.read 0)
  | .open, .write => some (.write tid)
  | .poison, _ => none

/-- Embedding of `Locked::release` (src/lock.rs:72-86).  `none` models a panic
(release of an open slot, or a mismatched release). -/
def release (s : LockState) (access : Access) : Option LockState :=
  match s, access with
  | .poison, _ => some .poison
  | .open, _ => none
  | .write _, .write => some .open
  | .read 0, .read => some .open
  | .read (n + 1), .read => some (.read n)
  | _, _ => none

end LockState

/-- Embedding of the panic path of `ResetBuffer::drop` (src/kernel.rs:80-100):
while the thread is panicking, the guard walks the kernel's resource list and
calls `Locked::release` with the declared access on every slot. -/
def panicGuardRelease (resources : List (LockState × Access)) :
    List (Option LockState) :=
  resources.map fun r => r.1.release r.2

/-- C1.  `acquire` and `release` on a `Locked` slot implement exactly the
canonical state machine: `acquire(Read)` takes `Open` to `Read(0)` and
`Read(n)` to `Read(n+1)`; `acquire(Write)` takes `Open` to `Write(tid)`;
`acquire` panics from `Write` (either access), from `Read` when `Write` is
requested, and from `Poison`; `release(Read)` takes `Read(0)` to `Open` and
`Read(n+1)` to `Read(n)`; `release(Write)` takes `Write` to `Open`; `release`
on a `Poison` slot leaves it `Poison` without panicking; every other release
(including release of an `Open` slot) panics. -/
theorem locked_state_machine :
    (∀ tid, LockState.acquire .open .read tid = some (.read 0)) ∧
    (∀ n tid, LockState.acquire (.read n) .read tid = some (.read (n + 1))) ∧
    (∀ tid, LockState.acquire .open .write tid = some (.write tid)) ∧
    (∀ u a tid, LockState.acquire (.write u) a tid = none) ∧
    (∀ n tid, LockState.acquire (.read n) .write tid = none) ∧
    (∀ a tid, LockState.acquire .poison a tid = none) ∧
    (LockState.release (.read 0) .read = some .open) ∧
    (∀ n, LockState.release (.read (n + 1)) .read = some (.read n)) ∧
    (∀ u, LockState.release (.write u) .write = some .open) ∧
    (∀ a, LockState.release .poison a = some .poison) ∧
    (∀ a, LockState.release .open a = none) ∧
    (∀ u, LockState.release (.write u) .read = none) ∧
    (∀ n, LockState.release (.read n) .write = none) := by
  refine ⟨fun _ => rfl, fun _ _ => rfl, fun _ => rfl, ?_, fun _ _ => rfl,
    fun a _ => by cases a <;> rfl, rfl, fun _ => rfl, fun _ => rfl,
    fun a => by cases a <;> rfl, fun a => by cases a <;> rfl,
    fun _ => rfl, fun n => by cases n <;> rfl⟩
  intro u a tid
  cases a <;> rfl

/-- C7.  When a slot is in `Write(orig)` and the very thread `orig` asks
`Locked::can` whether it may acquire the slot — with either access — the
check panics (`"thread deadlock"`, modelled by `none`) instead of ever
reporting the slot as busy-but-waitable; the blocking path of
`prepare_buffer`/`with_access` waits only while `can` returns `false`, so a
panic here can never block. -/
theorem can_same_thread_panics (tid : Nat) (a : V9.Access) :
    LockState.can (.write tid) a tid = none := by
  cases a <;> simp [LockState.can]

/-- C4 (code bug witness).  The panic guard `ResetBuffer::drop` releases every
slot in the kernel's resource list via `Locked::release`, but `release` maps a
`Write`-held slot to `Open`, never to `Poison`: after a kernel body panic the
slot is immediately reacquirable, contrary to the claim (and to the code's own
comment "Sets poison as appropriate"). -/
theorem panic_guard_leaves_write_slot_open (tid : Nat) :
    panicGuardRelease [(.write tid, .write)] = [some .open] ∧
    some LockState.open ≠ some LockState.poison := by
  exact ⟨rfl, by simp⟩

/-- Wrap-around successor on raw ids whose maximal value (`RawId::LAST`) is
`L`: this is `Raw::offset(self, 1)`, i.e. `(self as i64 + 1) as RawId`
(src/id.rs:42-44). -/
def step1 (L x : Nat) : Nat := (x + 1) % (L + 1)

/-- Wrap-around predecessor on raw ids with maximum `L` (`Raw::offset(self, -1)`). -/
def stepm1 (L x : Nat) : Nat := (x + L) % (L + 1)

/-- Embedding of `RunList<M>` (src/id.rs:768-774): an explicit element count
plus a list of `(a, b)` pairs.  `a < b` encodes the closed range `a..=b`,
`a = b` the singleton `{a}` and `a > b` the unordered pair `{b, a}`. -/
structure RunList where
  len : Nat
  data : List (Nat × Nat)
deriving DecidableEq, Repr

namespace RunList

/-- Ids yielded for one stored pair, in the order produced by
`RunListIter::next` (src/id.rs:1028-1058): an ascending pair `(a, b)` unfolds
through the buffer one id at a time — `a, a+1, …, b`, written here in closed
form as `range'` (the buffer only ever steps ids `< b ≤ L`, where `step(1)` is
plain `+1`) — a singleton yields itself, and a descending pair yields `b` then
`a`. -/
def pairIds (p : Nat × Nat) : List Nat :=
  if p.1 < p.2 then List.range' p.1 (p.2 + 1 - p.1)
  else if p.1 = p.2 then [p.1] else [p.2, p.1]

/-- All ids yielded by `RunList::iter`, pair by pair. -/
def iter (s : RunList) : List Nat := s.data.flatMap pairIds

/-- `RunList::iter().count()`. -/
def count (s : RunList) : Nat := s.iter.length

/-- `RunList::is_empty` (src/id.rs:807): the iterator yields nothing, which
happens exactly when `data` is empty (every stored pair yields at least one id). -/
def isEmpty (s : RunList) : Bool := s.data.isEmpty

/-- The default (empty) `RunList`. -/
def empty : RunList := ⟨0, []⟩

/-- Embedding of `RunList::push` (src/id.rs:808-891).  The last stored pair is
popped, inspected, and replaced according to the three families `a < b`,
`a = b`, `a > b` of the encoding; `len` is incremented up front and taken back
on the two explicit dedup arms.  (`validate` is `cfg(test)`-only and elided.) -/
def push (L : Nat) (s : RunList) (i : Nat) : RunList :=
  let len := s.len + 1
  match s.data.getLast? with
  | none => ⟨len, [(i, i)]⟩
  | some (a, b) =>
    let init := s.data.dropLast
    if a < b then
      if b ≠ L ∧ step1 L b = i then ⟨len, init ++ [(a, i)]⟩
      else if i ≠ L ∧ step1 L i = a then ⟨len, init ++ [(i, b)]⟩
      else ⟨len, init ++ [(a, b), (i, i)]⟩
    else if a = b then
      if a ≠ L ∧ step1 L a = i then ⟨len, init ++ [(a, i)]⟩
      else if i ≠ L ∧ step1 L i = a then ⟨len, init ++ [(i, a)]⟩
      else if i > a then ⟨len, init ++ [(i, a)]⟩
      else if a = i then ⟨len - 1, init ++ [(a, a)]⟩
      else ⟨len, init ++ [(a, i)]⟩
    else
      let s0 := if i < b then i else b
      let s1 := if i < b then b else if i < a then i else a
      let s2 := if i < b then a else if i < a then a else i
      if s0 ≠ L ∧ step1 L s0 = s1 then
        if s1 ≠ L ∧ step1 L s1 = s2 then ⟨len, init ++ [(s0, s2)]⟩
        else ⟨len, init ++ [(s0, s1), (s2, s2)]⟩
      else if s1 ≠ L ∧ step1 L s1 = s2 then ⟨len, init ++ [(s0, s0), (s1, s2)]⟩
      else if s0 = s1 ∨ s1 = s2 then ⟨len - 1, init ++ [(s2, s0)]⟩
      else ⟨len, init ++ [(s1, s0), (s2, s2)]⟩

/-- `RunList::extend` (src/id.rs:960-965): push every id of the iterator. -/
def extend (L : Nat) (s : RunList) (ids : List Nat) : RunList :=
  ids.foldl (push L) s

/-- Embedding of `RunList::push_run` (src/id.rs:892-913).  The
`assert!(h >= l)` becomes the error case; `len` grows by the run's size before
the merge check; the run is merged into an ascending tail exactly when
`a <= b && b.step(1) == l`. -/
def pushRun (L : Nat) (s : RunList) (r : Nat × Nat) : Except String RunList :=
  if r.2 < r.1 then .error "assertion failed: h >= l"
  else
    let len := s.len + (1 + r.2 - r.1)
    match s.data.getLast? with
    | some (a, b) =>
      if a ≤ b ∧ step1 L b = r.1 then .ok ⟨len, s.data.dropLast ++ [(a, r.2)]⟩
      else .ok ⟨len, s.data ++ [(r.1, r.2)]⟩
    | none => .ok ⟨len, s.data ++ [(r.1, r.2)]⟩

/-- Embedding of `RunList::pop` (src/id.rs:914-934): pop the last pair, return
one id and push back whatever remains of the pair. -/
def pop (L : Nat) (s : RunList) : Option (Nat × RunList) :=
  match s.data.getLast? with
  | none => none
  | some (a, b) =>
    let init := s.data.dropLast
    let len := s.len - 1
    if a > b then some (a, ⟨len, init ++ [(b, b)]⟩)
    else if a = b then some (a, ⟨len, init⟩)
    else some (b, ⟨len, init ++ [(a, stepm1 L b)]⟩)

/-- Embedding of `RunList::last` (src/id.rs:935-945): the representative id of
the last stored pair (`a` on the descending and singleton arms, `b` on the
ascending arm). -/
def last (s : RunList) : Option Nat :=
  s.data.getLast?.map fun p => if p.1 < p.2 then p.2 else p.1

/-- `RunList::clear` (src/id.rs:946-951). -/
def clear (_s : RunList) : RunList := ⟨0, []⟩

/-- Embedding of `RunList::iter_runs` (src/id.rs:966-994): each stored pair
becomes one ascending inclusive range, except that a descending pair `(a, b)`
yields the two singleton ranges `b..=b` then `a..=a`. -/
def iterRuns (s : RunList) : List (Nat × Nat) :=
  s.data.flatMap fun p => if p.2 < p.1 then [(p.2, p.2), (p.1, p.1)] else [(p.1, p.2)]

/-- Comparison used by `runs.sort_by_key(|run| *run.start())` in
`RunList::sort`. -/
def runLE (p q : Nat × Nat) : Prop := p.1 ≤ q.1

instance : DecidableRel runLE := fun p q => Nat.decLe p.1 q.1

instance : IsTotal (Nat × Nat) runLE := ⟨fun p q => Nat.le_total p.1 q.1⟩

instance : IsTrans (Nat × Nat) runLE := ⟨fun _ _ _ h h' => Nat.le_trans h h'⟩

/-- Embedding of `RunList::sort` (src/id.rs:995-1007): collect `iter_runs`,
stable-sort them by start (Rust's `sort_by_key` is stable; a stable sort is
extensionally unique, and is modelled by insertion sort), clear the list and
re-push every run through `push_run`. -/
def sort (L : Nat) (s : RunList) : Except String RunList :=
  (List.insertionSort runLE s.iterRuns).foldlM (fun acc r => pushRun L acc r) ⟨0, []⟩

end RunList

theorem range'_snoc (s n : Nat) : List.range' s (n + 1) = List.range' s n ++ [s + n] := by
  induction n generalizing s with
  | zero => simp [List.range'_succ]
  | succ k ih =>
    rw [List.range'_succ s (k + 1) 1, ih (s + 1), List.range'_succ s k 1]
    simp [Nat.add_assoc, Nat.add_comm 1 k]

namespace RunList

theorem step1_of_lt {L x : Nat} (h : x < L) : step1 L x = x + 1 :=
  Nat.mod_eq_of_lt (by omega)

theorem pairIds_singleton (a : Nat) : pairIds (a, a) = [a] := by
  simp [pairIds]

theorem pairIds_desc {a b : Nat} (h : b < a) : pairIds (a, b) = [b, a] := by
  simp [pairIds, Nat.lt_asymm h, Nat.ne_of_gt h]

theorem pairIds_asc {a b : Nat} (h : a ≤ b) :
    pairIds (a, b) = List.range' a (b + 1 - a) := by
  rcases Nat.lt_or_ge a b with h1 | h1
  · simp [pairIds, h1]
  · have hab : a = b := by omega
    subst hab
    have h2 : a + 1 - a = 1 := by omega
    simp [pairIds, h2, List.range'_succ]

theorem length_pairIds_asc {a b : Nat} (h : a ≤ b) :
    (pairIds (a, b)).length = b + 1 - a := by
  rw [pairIds_asc h]
  simp

theorem mem_pairIds_asc {a b x : Nat} (h : a ≤ b) :
    x ∈ pairIds (a, b) ↔ a ≤ x ∧ x ≤ b := by
  rw [pairIds_asc h, List.mem_range'_1]
  omega

theorem pairIds_ne_nil (p : Nat × Nat) : pairIds p ≠ [] := by
  rcases p with ⟨a, b⟩
  rcases Nat.lt_trichotomy a b with h | h | h
  · rw [pairIds_asc (Nat.le_of_lt h)]
    have : b + 1 - a = (b - a) + 1 := by omega
    rw [this]
    simp [List.range'_succ]
  · subst h; simp [pairIds_singleton]
  · simp [pairIds_desc h]

theorem fst_mem_pairIds (p : Nat × Nat) : p.1 ∈ pairIds p := by
  rcases p with ⟨a, b⟩
  rcases Nat.lt_trichotomy a b with h | h | h
  · rw [mem_pairIds_asc (Nat.le_of_lt h)]; omega
  · subst h; simp [pairIds_singleton]
  · simp [pairIds_desc h]

theorem snd_mem_pairIds (p : Nat × Nat) : p.2 ∈ pairIds p := by
  rcases p with ⟨a, b⟩
  rcases Nat.lt_trichotomy a b with h | h | h
  · rw [mem_pairIds_asc (Nat.le_of_lt h)]; omega
  · subst h; simp [pairIds_singleton]
  · simp [pairIds_desc h]

/-- All ids stored in a `RunList` are raw values of the id type, i.e. at most
`LAST = L`. -/
def Bounded (L : Nat) (s : RunList) : Prop := ∀ x ∈ s.iter, x ≤ L

instance (L : Nat) (s : RunList) : Decidable (Bounded L s) :=
  inferInstanceAs (Decidable (∀ x ∈ s.iter, x ≤ L))

theorem bounded_last_pair {L : Nat} {s : RunList} {a b : Nat}
    (hb : Bounded L s) (h : s.data.getLast? = some (a, b)) : a ≤ L ∧ b ≤ L := by
  have hmem : (a, b) ∈ s.data := List.mem_of_mem_getLast? h
  constructor
  · exact hb a (List.mem_flatMap.mpr ⟨(a, b), hmem, fst_mem_pairIds (a, b)⟩)
  · exact hb b (List.mem_flatMap.mpr ⟨(a, b), hmem, snd_mem_pairIds (a, b)⟩)

theorem bounded_of_concat {L : Nat} {s : RunList} {ys : List (Nat × Nat)}
    {a b : Nat} (hb : Bounded L s) (hys : s.data = ys ++ [(a, b)]) :
    ∀ x ∈ ys.flatMap pairIds, x ≤ L := by
  intro x hx
  apply hb
  unfold iter
  rw [hys, List.flatMap_append]
  exact List.mem_append_left _ hx

/-- Characterization of one `RunList::push`: for in-range ids it either adds
the pushed id to the multiset of stored ids and bumps `len`, or (on the two
explicit dedup arms) leaves the multiset alone when the id was already
present, taking the `len` increment back. -/
theorem push_iter_perm (L : Nat) (s : RunList) (i : Nat)
    (hb : Bounded L s) (hi : i ≤ L) :
    ((push L s i).iter.Perm (s.iter ++ [i]) ∧ (push L s i).len = s.len + 1) ∨
    (i ∈ s.iter ∧ (push L s i).iter.Perm s.iter ∧ (push L s i).len = s.len) := by
  match hlast : s.data.getLast? with
  | none =>
    have hd : s.data = [] := by simpa using hlast
    left
    constructor
    · simp [push, hlast, iter, hd, pairIds_singleton]
    · simp [push, hlast]
  | some (a, b) =>
    obtain ⟨haL, hbL⟩ := bounded_last_pair hb hlast
    obtain ⟨ys, hys⟩ := List.getLast?_eq_some_iff.mp hlast
    have hdrop : s.data.dropLast = ys := by rw [hys]; exact List.dropLast_concat
    have hmemlast : ∀ x ∈ pairIds (a, b), x ∈ s.iter := by
      intro x hx
      unfold iter
      rw [hys, List.flatMap_append]
      refine List.mem_append_right _ ?_
      simpa using hx
    have hiter : s.iter = ys.flatMap pairIds ++ pairIds (a, b) := by
      unfold iter
      rw [hys, List.flatMap_append]
      simp
    simp only [push, hlast, hdrop]
    rcases Nat.lt_trichotomy a b with hab | hab | hab
    · -- ascending last pair: a < b
      rw [if_pos hab]
      by_cases h1 : b ≠ L ∧ step1 L b = i
      · -- extend the range upward: i = b + 1
        have hib : i = b + 1 := by
          have := step1_of_lt (lt_of_le_of_ne hbL h1.1)
          omega
        rw [if_pos h1]
        left
        refine ⟨?_, rfl⟩
        simp only [iter, hys, List.flatMap_append, List.flatMap_cons,
          List.flatMap_nil, List.append_nil, List.append_assoc]
        apply List.Perm.append_left
        rw [pairIds_asc (by omega : a ≤ i), pairIds_asc (Nat.le_of_lt hab), hib]
        have h2 : b + 1 + 1 - a = (b + 1 - a) + 1 := by omega
        rw [h2, range'_snoc]
        have h3 : a + (b + 1 - a) = b + 1 := by omega
        rw [h3]
      · rw [if_neg h1]
        by_cases h2 : i ≠ L ∧ step1 L i = a
        · -- extend the range downward: i + 1 = a
          have hia : i + 1 = a := by
            have := step1_of_lt (lt_of_le_of_ne hi h2.1)
            omega
          rw [if_pos h2]
          left
          refine ⟨?_, rfl⟩
          simp only [iter, hys, List.flatMap_append, List.flatMap_cons,
            List.flatMap_nil, List.append_nil, List.append_assoc]
          apply List.Perm.append_left
          rw [pairIds_asc (by omega : i ≤ b), pairIds_asc (Nat.le_of_lt hab)]
          have h3 : b + 1 - i = (b + 1 - a) + 1 := by omega
          rw [h3, List.range'_succ, hia]
          exact (List.perm_append_singleton _ _).symm
        · -- fresh singleton after the range
          rw [if_neg h2]
          left
          refine ⟨?_, rfl⟩
          simp only [iter, hys, List.flatMap_append, List.flatMap_cons,
            List.flatMap_nil, List.append_nil, List.append_assoc, pairIds_singleton]
          exact List.Perm.refl _
    · -- singleton last pair: a = b
      subst hab
      rw [if_neg (Nat.lt_irrefl a), if_pos rfl]
      by_cases h1 : a ≠ L ∧ step1 L a = i
      · have hia : i = a + 1 := by
          have := step1_of_lt (lt_of_le_of_ne haL h1.1)
          omega
        rw [if_pos h1]
        left
        refine ⟨?_, rfl⟩
        simp only [iter, hys, List.flatMap_append, List.flatMap_cons,
          List.flatMap_nil, List.append_nil, List.append_assoc, pairIds_singleton]
        apply List.Perm.append_left
        rw [pairIds_asc (by omega : a ≤ i), hia]
        have h2 : a + 1 + 1 - a = 2 := by omega
        rw [h2, range'_snoc]
        simp [List.range'_succ]
      · rw [if_neg h1]
        by_cases h2 : i ≠ L ∧ step1 L i = a
        · have hia : i + 1 = a := by
            have := step1_of_lt (lt_of_le_of_ne hi h2.1)
            omega
          rw [if_pos h2]
          left
          refine ⟨?_, rfl⟩
          simp only [iter, hys, List.flatMap_append, List.flatMap_cons,
            List.flatMap_nil, List.append_nil, List.append_assoc, pairIds_singleton]
          apply List.Perm.append_left
          rw [pairIds_asc (by omega : i ≤ a)]
          have h3 : a + 1 - i = 2 := by omega
          rw [h3, range'_snoc]
          simp only [List.range'_succ, List.range'_zero]
          have h4 : i + 1 = a := hia
          rw [h4]
          exact (List.perm_append_singleton _ _).symm
        · rw [if_neg h2]
          by_cases h3 : i > a
          · rw [if_pos h3]
            left
            refine ⟨?_, rfl⟩
            simp only [iter, hys, List.flatMap_append, List.flatMap_cons,
              List.flatMap_nil, List.append_nil, List.append_assoc,
              pairIds_singleton, pairIds_desc h3]
            exact List.Perm.refl _
          · rw [if_neg h3]
            by_cases h4 : a = i
            · rw [if_pos h4]
              right
              subst h4
              refine ⟨hmemlast a (by simp [pairIds_singleton]), ?_, by simp⟩
              simp only [iter, hys, List.flatMap_append, List.flatMap_cons,
                List.flatMap_nil, List.append_nil, pairIds_singleton]
              exact List.Perm.refl _
            · rw [if_neg h4]
              have h5 : i < a := by omega
              left
              refine ⟨?_, rfl⟩
              simp only [iter, hys, List.flatMap_append, List.flatMap_cons,
                List.flatMap_nil, List.append_nil, List.append_assoc,
                pairIds_singleton, pairIds_desc h5]
              apply List.Perm.append_left
              exact (List.perm_append_singleton _ _).symm
    · -- descending last pair: a > b
      rw [if_neg (by omega : ¬ a < b), if_neg (by omega : ¬ a = b)]
      rcases Nat.lt_trichotomy i b with hpos | hpos | hpos
      · -- i < b: sorted triple is (i, b, a)
        simp only [if_pos hpos]
        by_cases h1 : i ≠ L ∧ step1 L i = b
        · have hib : i + 1 = b := by
            have := step1_of_lt (lt_of_le_of_ne hi h1.1)
            omega
          rw [if_pos h1]
          by_cases h2 : b ≠ L ∧ step1 L b = a
          · have hba : b + 1 = a := by
              have := step1_of_lt (lt_of_le_of_ne hbL h2.1)
              omega
            rw [if_pos h2]
            left
            refine ⟨?_, rfl⟩
            simp only [iter, hys, List.flatMap_append, List.flatMap_cons,
              List.flatMap_nil, List.append_nil, List.append_assoc,
              pairIds_desc hab]
            apply List.Perm.append_left
            rw [pairIds_asc (by omega : i ≤ a)]
            have h3 : a + 1 - i = 3 := by omega
            rw [h3, range'_snoc, range'_snoc]
            simp only [List.range'_succ, List.range'_zero]
            have e1 : i + 1 = b := hib
            have e2 : i + 2 = a := by omega
            rw [e2, e1]
            exact (List.perm_append_singleton _ _).symm
          · rw [if_neg h2]
            left
            refine ⟨?_, rfl⟩
            simp only [iter, hys, List.flatMap_append, List.flatMap_cons,
              List.flatMap_nil, List.append_nil, List.append_assoc,
              pairIds_desc hab, pairIds_singleton]
            apply List.Perm.append_left
            rw [pairIds_asc (by omega : i ≤ b)]
            have h3 : b + 1 - i = 2 := by omega
            rw [h3, range'_snoc]
            simp only [List.range'_succ, List.range'_zero]
            rw [show i + 1 = b from hib]
            exact ((List.perm_append_singleton _ _).symm).trans
              (List.Perm.refl _)
        · rw [if_neg h1]
          by_cases h2 : b ≠ L ∧ step1 L b = a
          · have hba : b + 1 = a := by
              have := step1_of_lt (lt_of_le_of_ne hbL h2.1)
              omega
            rw [if_pos h2]
            left
            refine ⟨?_, rfl⟩
            simp only [iter, hys, List.flatMap_append, List.flatMap_cons,
              List.flatMap_nil, List.append_nil, List.append_assoc,
              pairIds_desc hab, pairIds_singleton]
            apply List.Perm.append_left
            rw [pairIds_asc (by omega : b ≤ a)]
            have h3 : a + 1 - b = 2 := by omega
            rw [h3, range'_snoc]
            simp only [List.range'_succ, List.range'_zero]
            rw [show b + 1 = a from hba]
            exact (List.perm_append_singleton _ _).symm
          · rw [if_neg h2]
            have h3 : ¬ (i = b ∨ b = a) := by omega
            rw [if_neg h3]
            left
            refine ⟨?_, rfl⟩
            simp only [iter, hys, List.flatMap_append, List.flatMap_cons,
              List.flatMap_nil, List.append_nil, List.append_assoc,
              pairIds_desc hab, pairIds_desc hpos, pairIds_singleton]
            apply List.Perm.append_left
            exact (List.perm_append_singleton _ _).symm
      · -- i = b: sorted triple is (b, b, a)
        subst hpos
        have hnb : ¬ i < i := Nat.lt_irrefl i
        simp only [if_neg hnb, if_pos hab]
        have hc1 : ¬ (i ≠ L ∧ step1 L i = i) := by
          rintro ⟨hne, hstep⟩
          have := step1_of_lt (lt_of_le_of_ne hi hne)
          omega
        rw [if_neg hc1]
        by_cases h2 : i ≠ L ∧ step1 L i = a
        · -- the tail splits into (i,i) and the ascending (i,a)
          have hia : i + 1 = a := by
            have := step1_of_lt (lt_of_le_of_ne hi h2.1)
            omega
          rw [if_pos h2]
          left
          refine ⟨?_, rfl⟩
          simp only [iter, hys, List.flatMap_append, List.flatMap_cons,
            List.flatMap_nil, List.append_nil, List.append_assoc,
            pairIds_desc hab, pairIds_singleton]
          apply List.Perm.append_left
          rw [pairIds_asc (by omega : i ≤ a)]
          have h3 : a + 1 - i = 2 := by omega
          rw [h3, range'_snoc]
          simp only [List.range'_succ, List.range'_zero]
          rw [show i + 1 = a from hia]
          exact (List.perm_append_singleton _ _).symm
        · -- dedup arm: i is one endpoint of the stored pair
          rw [if_neg h2, if_pos (Or.inl True.intro)]
          right
          refine ⟨hmemlast i (by simp [pairIds_desc hab]), ?_, by simp⟩
          simp only [iter, hys, List.flatMap_append, List.flatMap_cons,
            List.flatMap_nil, List.append_nil, pairIds_desc hab]
          exact List.Perm.refl _
      · -- b < i: the triple depends on the relation of i to a
        have hnb : ¬ i < b := by omega
        rcases Nat.lt_trichotomy i a with hia | hia | hia
        · -- b < i < a: sorted triple is (b, i, a)
          simp only [if_neg hnb, if_pos hia]
          by_cases h1 : b ≠ L ∧ step1 L b = i
          · have hbi : b + 1 = i := by
              have := step1_of_lt (lt_of_le_of_ne hbL h1.1)
              omega
            rw [if_pos h1]
            by_cases h2 : i ≠ L ∧ step1 L i = a
            · have hia2 : i + 1 = a := by
                have := step1_of_lt (lt_of_le_of_ne hi h2.1)
                omega
              rw [if_pos h2]
              left
              refine ⟨?_, rfl⟩
              simp only [iter, hys, List.flatMap_append, List.flatMap_cons,
                List.flatMap_nil, List.append_nil, List.append_assoc,
                pairIds_desc hab]
              apply List.Perm.append_left
              rw [pairIds_asc (by omega : b ≤ a)]
              have h3 : a + 1 - b = 3 := by omega
              rw [h3, range'_snoc, range'_snoc]
              simp only [List.range'_succ, List.range'_zero]
              rw [show b + 1 = i from hbi,
                show b + 2 = a by omega]
              have hswap : List.Perm [b, i, a] [b, a, i] :=
                List.Perm.cons b (List.Perm.swap a i [])
              exact hswap.trans (by simp)
            · rw [if_neg h2]
              left
              refine ⟨?_, rfl⟩
              simp only [iter, hys, List.flatMap_append, List.flatMap_cons,
                List.flatMap_nil, List.append_nil, List.append_assoc,
                pairIds_desc hab, pairIds_singleton]
              apply List.Perm.append_left
              rw [pairIds_asc (by omega : b ≤ i)]
              have h3 : i + 1 - b = 2 := by omega
              rw [h3, range'_snoc]
              simp only [List.range'_succ, List.range'_zero]
              rw [show b + 1 = i from hbi]
              have hswap : List.Perm [b, i, a] [b, a, i] :=
                List.Perm.cons b (List.Perm.swap a i [])
              exact hswap.trans (by simp)
          · rw [if_neg h1]
            by_cases h2 : i ≠ L ∧ step1 L i = a
            · have hia2 : i + 1 = a := by
                have := step1_of_lt (lt_of_le_of_ne hi h2.1)
                omega
              rw [if_pos h2]
              left
              refine ⟨?_, rfl⟩
              simp only [iter, hys, List.flatMap_append, List.flatMap_cons,
                List.flatMap_nil, List.append_nil, List.append_assoc,
                pairIds_desc hab, pairIds_singleton]
              apply List.Perm.append_left
              rw [pairIds_asc (by omega : i ≤ a)]
              have h3 : a + 1 - i = 2 := by omega
              rw [h3, range'_snoc]
              simp only [List.range'_succ, List.range'_zero]
              rw [show i + 1 = a from hia2]
              have hswap : List.Perm [b, i, a] [b, a, i] :=
                List.Perm.cons b (List.Perm.swap a i [])
              exact hswap.trans (by simp)
            · have h3 : ¬ (b = i ∨ i = a) := by omega
              rw [if_neg h2, if_neg h3]
              left
              refine ⟨?_, rfl⟩
              simp only [iter, hys, List.flatMap_append, List.flatMap_cons,
                List.flatMap_nil, List.append_nil, List.append_assoc,
                pairIds_desc hab, pairIds_desc (by omega : b < i), pairIds_singleton]
              apply List.Perm.append_left
              have hswap : List.Perm [b, i, a] [b, a, i] :=
                List.Perm.cons b (List.Perm.swap a i [])
              exact hswap.trans (by simp)
        · -- i = a: sorted triple is (b, a, a); dedup arm fires unless b + 1 = a
          subst hia
          have hnia : ¬ i < i := Nat.lt_irrefl i
          simp only [if_neg hnb, if_neg hnia]
          by_cases h1 : b ≠ L ∧ step1 L b = i
          · have hbi : b + 1 = i := by
              have := step1_of_lt (lt_of_le_of_ne hbL h1.1)
              omega
            rw [if_pos h1]
            have hc2 : ¬ (i ≠ L ∧ step1 L i = i) := by
              rintro ⟨hne, hstep⟩
              have := step1_of_lt (lt_of_le_of_ne hi hne)
              omega
            rw [if_neg hc2]
            left
            refine ⟨?_, rfl⟩
            simp only [iter, hys, List.flatMap_append, List.flatMap_cons,
              List.flatMap_nil, List.append_nil, List.append_assoc,
              pairIds_desc hab, pairIds_singleton]
            apply List.Perm.append_left
            rw [pairIds_asc (by omega : b ≤ i)]
            have h3 : i + 1 - b = 2 := by omega
            rw [h3, range'_snoc]
            simp only [List.range'_succ, List.range'_zero]
            rw [show b + 1 = i from hbi]
            have hswap : List.Perm [b, i, i] [b, i, i] := List.Perm.refl _
            simp
          · rw [if_neg h1]
            have hc2 : ¬ (i ≠ L ∧ step1 L i = i) := by
              rintro ⟨hne, hstep⟩
              have := step1_of_lt (lt_of_le_of_ne hi hne)
              omega
            rw [if_neg hc2, if_pos (Or.inr True.intro)]
            right
            refine ⟨hmemlast i (by simp [pairIds_desc hab]), ?_, by simp⟩
            simp only [iter, hys, List.flatMap_append, List.flatMap_cons,
              List.flatMap_nil, List.append_nil, pairIds_desc hab]
            exact List.Perm.refl _
        · -- i > a: sorted triple is (b, a, i)
          have hnia : ¬ i < a := by omega
          simp only [if_neg hnb, if_neg hnia]
          by_cases h1 : b ≠ L ∧ step1 L b = a
          · have hba : b + 1 = a := by
              have := step1_of_lt (lt_of_le_of_ne hbL h1.1)
              omega
            rw [if_pos h1]
            by_cases h2 : a ≠ L ∧ step1 L a = i
            · have hai : a + 1 = i := by
                have := step1_of_lt (lt_of_le_of_ne haL h2.1)
                omega
              rw [if_pos h2]
              left
              refine ⟨?_, rfl⟩
              simp only [iter, hys, List.flatMap_append, List.flatMap_cons,
                List.flatMap_nil, List.append_nil, List.append_assoc,
                pairIds_desc hab]
              apply List.Perm.append_left
              rw [pairIds_asc (by omega : b ≤ i)]
              have h3 : i + 1 - b = 3 := by omega
              rw [h3, range'_snoc, range'_snoc]
              simp only [List.range'_succ, List.range'_zero]
              rw [show b + 1 = a from hba,
                show b + 2 = i by omega]
              simp
            · rw [if_neg h2]
              left
              refine ⟨?_, rfl⟩
              simp only [iter, hys, List.flatMap_append, List.flatMap_cons,
                List.flatMap_nil, List.append_nil, List.append_assoc,
                pairIds_desc hab, pairIds_singleton]
              apply List.Perm.append_left
              rw [pairIds_asc (by omega : b ≤ a)]
              have h3 : a + 1 - b = 2 := by omega
              rw [h3, range'_snoc]
              simp only [List.range'_succ, List.range'_zero]
              rw [show b + 1 = a from hba]
              simp
          · rw [if_neg h1]
            by_cases h2 : a ≠ L ∧ step1 L a = i
            · have hai : a + 1 = i := by
                have := step1_of_lt (lt_of_le_of_ne haL h2.1)
                omega
              rw [if_pos h2]
              left
              refine ⟨?_, rfl⟩
              simp only [iter, hys, List.flatMap_append, List.flatMap_cons,
                List.flatMap_nil, List.append_nil, List.append_assoc,
                pairIds_desc hab, pairIds_singleton]
              apply List.Perm.append_left
              rw [pairIds_asc (by omega : a ≤ i)]
              have h3 : i + 1 - a = 2 := by omega
              rw [h3, range'_snoc]
              simp only [List.range'_succ, List.range'_zero]
              rw [show a + 1 = i from hai]
              simp
            · have h3 : ¬ (b = a ∨ a = i) := by omega
              rw [if_neg h2, if_neg h3]
              left
              refine ⟨?_, rfl⟩
              simp only [iter, hys, List.flatMap_append, List.flatMap_cons,
                List.flatMap_nil, List.append_nil, List.append_assoc,
                pairIds_desc hab, pairIds_singleton]
              apply List.Perm.append_left
              exact List.Perm.refl _

theorem push_ne_nil (L : Nat) (s : RunList) (i : Nat) : (push L s i).data ≠ [] := by
  match h : s.data.getLast? with
  | none => simp [push, h]
  | some (a, b) =>
    simp only [push, h]
    split_ifs <;> simp

theorem len_count_push (L : Nat) (s : RunList) (i : Nat)
    (hb : Bounded L s) (hi : i ≤ L) (h : s.len = s.count) :
    (push L s i).len = (push L s i).count := by
  rcases push_iter_perm L s i hb hi with ⟨hperm, hlen⟩ | ⟨_, hperm, hlen⟩
  · have := hperm.length_eq
    simp only [List.length_append, List.length_singleton] at this
    unfold count at *
    omega
  · have := hperm.length_eq
    unfold count at *
    omega

theorem count_push_of_not_mem (L : Nat) (s : RunList) (i : Nat)
    (hb : Bounded L s) (hi : i ≤ L) (h : i ∉ s.iter) :
    (push L s i).count = s.count + 1 := by
  rcases push_iter_perm L s i hb hi with ⟨hperm, _⟩ | ⟨hmem, _, _⟩
  · have := hperm.length_eq
    simp only [List.length_append, List.length_singleton] at this
    unfold count
    omega
  · exact absurd hmem h

theorem mem_push_iff (L : Nat) (s : RunList) (i : Nat)
    (hb : Bounded L s) (hi : i ≤ L) (x : Nat) :
    x ∈ (push L s i).iter ↔ x = i ∨ x ∈ s.iter := by
  rcases push_iter_perm L s i hb hi with ⟨hperm, _⟩ | ⟨hmem, hperm, _⟩
  · rw [hperm.mem_iff]
    simp [or_comm]
  · rw [hperm.mem_iff]
    constructor
    · exact Or.inr
    · rintro (rfl | hx)
      · exact hmem
      · exact hx

theorem push_bounded (L : Nat) (s : RunList) (i : Nat)
    (hb : Bounded L s) (hi : i ≤ L) : Bounded L (push L s i) := by
  intro x hx
  rcases (mem_push_iff L s i hb hi x).mp hx with rfl | hx
  · exact hi
  · exact hb x hx

theorem extend_bounded (L : Nat) (ids : List Nat) (s : RunList)
    (hb : Bounded L s) (hids : ∀ x ∈ ids, x ≤ L) : Bounded L (extend L s ids) := by
  induction ids generalizing s with
  | nil => exact hb
  | cons i rest ih =>
    simp only [extend, List.foldl_cons]
    exact ih _ (push_bounded L s i hb (hids i (by simp)))
      (fun x hx => hids x (by simp [hx]))

theorem mem_extend_iff (L : Nat) (ids : List Nat) (s : RunList)
    (hb : Bounded L s) (hids : ∀ x ∈ ids, x ≤ L) (x : Nat) :
    x ∈ (extend L s ids).iter ↔ x ∈ ids ∨ x ∈ s.iter := by
  induction ids generalizing s with
  | nil => simp [extend]
  | cons i rest ih =>
    simp only [extend, List.foldl_cons]
    rw [show (rest.foldl (push L) (push L s i)) = extend L (push L s i) rest from rfl]
    rw [ih (push L s i) (push_bounded L s i hb (hids i (by simp)))
      (fun y hy => hids y (by simp [hy]))]
    rw [mem_push_iff L s i hb (hids i (by simp)) x]
    simp only [List.mem_cons]
    tauto

theorem extend_ne_nil (L : Nat) (ids : List Nat) (s : RunList) (h : ids ≠ []) :
    (extend L s ids).data ≠ [] := by
  induction ids generalizing s with
  | nil => exact absurd rfl h
  | cons i rest ih =>
    simp only [extend, List.foldl_cons]
    match rest with
    | [] => exact push_ne_nil L s i
    | j :: rest' => exact ih (push L s i) (by simp)

theorem len_count_extend (L : Nat) (ids : List Nat) (s : RunList)
    (hb : Bounded L s) (hids : ∀ x ∈ ids, x ≤ L) (h : s.len = s.count) :
    (extend L s ids).len = (extend L s ids).count := by
  induction ids generalizing s with
  | nil => exact h
  | cons i rest ih =>
    simp only [extend, List.foldl_cons]
    exact ih (push L s i) (push_bounded L s i hb (hids i (by simp)))
      (fun x hx => hids x (by simp [hx]))
      (len_count_push L s i hb (hids i (by simp)) h)

/-- The non-mergeable relation between consecutive stored pairs: `push_run`
appends (rather than merges) exactly when the tail is not an ascending pair
whose successor end is the new run's start. -/
def NM (L : Nat) (p q : Nat × Nat) : Prop := ¬ (p.1 ≤ p.2 ∧ step1 L p.2 = q.1)

/-- Number of ids of one ascending inclusive run. -/
def runSize (p : Nat × Nat) : Nat := 1 + p.2 - p.1

/-- Total id count of a list of ascending runs. -/
def sizes (l : List (Nat × Nat)) : Nat := (l.map runSize).sum

theorem sizes_append (l : List (Nat × Nat)) (r : Nat × Nat) :
    sizes (l ++ [r]) = sizes l + runSize r := by
  simp [sizes]

theorem foldlM_cons_ok {α β : Type} (f : β → α → Except String β) (t t' : β)
    (r : α) (rs : List α) (h : f t r = .ok t') :
    (r :: rs).foldlM f t = rs.foldlM f t' := by
  simp [List.foldlM_cons, h]
  rfl

/-- Structure of `push_run`-folds over ascending, start-sorted runs of
in-range ids: the fold succeeds and its output stores ascending pairs sorted
by start, no two consecutive pairs mergeable, with `len` equal to the total
run size, and the stored id set is the input set plus the ids of the folded
runs. -/
theorem fold_pushRun_invariant (L : Nat) (rs : List (Nat × Nat)) :
    ∀ t : RunList,
    (∀ r ∈ rs, r.1 ≤ r.2 ∧ r.2 < L) →
    List.Pairwise runLE rs →
    (∀ p ∈ t.data, p.1 ≤ p.2 ∧ p.2 < L) →
    List.Pairwise runLE t.data →
    List.Chain' (NM L) t.data →
    (∀ p ∈ t.data, ∀ r ∈ rs, p.1 ≤ r.1) →
    t.len = sizes t.data →
    ∃ u, rs.foldlM (pushRun L) t = Except.ok u ∧
      (∀ p ∈ u.data, p.1 ≤ p.2 ∧ p.2 < L) ∧
      List.Pairwise runLE u.data ∧
      List.Chain' (NM L) u.data ∧
      u.len = sizes u.data ∧
      (∀ x, x ∈ u.iter ↔ x ∈ t.iter ∨ ∃ r ∈ rs, r.1 ≤ x ∧ x ≤ r.2) := by
  induction rs with
  | nil =>
    intro t _ _ h1 h2 h3 _ h5
    exact ⟨t, rfl, h1, h2, h3, h5, by simp⟩
  | cons r rs ih =>
    intro t hrs hsort ht hpw hch hcross hlen
    obtain ⟨hr1, hr2⟩ := hrs r (by simp)
    have hrs' : ∀ q ∈ rs, q.1 ≤ q.2 ∧ q.2 < L := fun q hq => hrs q (by simp [hq])
    have hsort' : List.Pairwise runLE rs := (List.pairwise_cons.mp hsort).2
    have hrle : ∀ q ∈ rs, r.1 ≤ q.1 := (List.pairwise_cons.mp hsort).1
    match hlast : t.data.getLast? with
    | none =>
      have hd : t.data = [] := by simpa using hlast
      have hpush : pushRun L t r = .ok ⟨t.len + (1 + r.2 - r.1), t.data ++ [r]⟩ := by
        simp [pushRun, hlast, Nat.not_lt.mpr hr1]
      rw [foldlM_cons_ok _ _ _ _ _ hpush]
      obtain ⟨u, hu, h1, h2, h3, h4, h5⟩ :=
        ih ⟨t.len + (1 + r.2 - r.1), t.data ++ [r]⟩
          hrs' hsort'
          (by
            intro p hp
            rw [hd] at hp
            simp at hp
            subst hp
            exact ⟨hr1, hr2⟩)
          (by rw [hd]; simpa using List.pairwise_singleton _ _)
          (by rw [hd]; simp)
          (by
            intro p hp q hq
            rw [hd] at hp
            simp at hp
            subst hp
            exact hrle q hq)
          (by rw [hd]; simp [sizes, runSize, hlen, hd])
      refine ⟨u, hu, h1, h2, h3, h4, ?_⟩
      intro x
      rw [h5 x]
      have : x ∈ iter ⟨t.len + (1 + r.2 - r.1), t.data ++ [r]⟩ ↔
          x ∈ t.iter ∨ (r.1 ≤ x ∧ x ≤ r.2) := by
        simp only [iter, List.flatMap_append, List.flatMap_cons, List.flatMap_nil,
          List.append_nil, List.mem_append]
        rw [mem_pairIds_asc hr1]
      rw [this]
      constructor
      · rintro ((hx | hx) | ⟨q, hq, hx⟩)
        · exact Or.inl hx
        · exact Or.inr ⟨r, by simp, hx⟩
        · exact Or.inr ⟨q, by simp [hq], hx⟩
      · rintro (hx | ⟨q, hq, hx⟩)
        · exact Or.inl (Or.inl hx)
        · rcases List.mem_cons.mp hq with rfl | hq
          · exact Or.inl (Or.inr hx)
          · exact Or.inr ⟨q, hq, hx⟩
    | some (a, b) =>
      obtain ⟨ys, hys⟩ := List.getLast?_eq_some_iff.mp hlast
      have hab : a ≤ b ∧ b < L := by
        have := ht (a, b) (by rw [hys]; simp)
        exact this
      by_cases hm : a ≤ b ∧ step1 L b = r.1
      · -- merge into the ascending tail
        have hbr : b + 1 = r.1 := by
          have := step1_of_lt hab.2
          omega
        have hpush : pushRun L t r =
            .ok ⟨t.len + (1 + r.2 - r.1), t.data.dropLast ++ [(a, r.2)]⟩ := by
          simp [pushRun, hlast, Nat.not_lt.mpr hr1, hm]
        have hdrop : t.data.dropLast = ys := by rw [hys]; exact List.dropLast_concat
        rw [foldlM_cons_ok _ _ _ _ _ hpush]
        have hyspw : List.Pairwise runLE ys ∧ ∀ p ∈ ys, runLE p (a, b) := by
          have := (List.pairwise_append.mp (hys ▸ hpw))
          exact ⟨this.1, fun p hp => this.2.2 p hp (a, b) (by simp)⟩
        have hysch : List.Chain' (NM L) ys ∧
            (∀ p, ys.getLast? = some p → NM L p (a, b)) := by
          have := (List.chain'_append.mp (hys ▸ hch))
          refine ⟨this.1, fun p hp => this.2.2 p hp (a, b) (by simp)⟩
        have hcross2 : ∀ q ∈ rs, a ≤ q.1 := by
          intro q hq
          have h1 := hcross (a, b) (by rw [hys]; simp) q (by simp [hq])
          exact h1
        obtain ⟨u, hu, h1, h2, h3, h4, h5⟩ :=
          ih ⟨t.len + (1 + r.2 - r.1), ys ++ [(a, r.2)]⟩
            hrs' hsort'
            (by
              intro p hp
              rcases List.mem_append.mp hp with hp | hp
              · exact ht p (by rw [hys]; simp [hp])
              · simp at hp
                subst hp
                exact ⟨by omega, hr2⟩)
            (by
              rw [List.pairwise_append]
              refine ⟨hyspw.1, List.pairwise_singleton _ _, ?_⟩
              intro p hp q hq
              simp at hq
              subst hq
              exact hyspw.2 p hp)
            (by
              rw [List.chain'_append]
              refine ⟨hysch.1, List.chain'_singleton _, ?_⟩
              intro p hp q hq
              simp at hq
              subst hq
              exact hysch.2 p hp)
            (by
              intro p hp q hq
              rcases List.mem_append.mp hp with hp | hp
              · exact hcross p (by rw [hys]; simp [hp]) q (by simp [hq])
              · simp at hp
                subst hp
                exact hcross2 q hq)
            (by
              have hlen2 : t.len = sizes ys + runSize (a, b) := by
                rw [hlen, hys, sizes_append]
              rw [show RunList.len ⟨t.len + (1 + r.2 - r.1), ys ++ [(a, r.2)]⟩
                  = t.len + (1 + r.2 - r.1) from rfl]
              rw [show RunList.data ⟨t.len + (1 + r.2 - r.1), ys ++ [(a, r.2)]⟩
                  = ys ++ [(a, r.2)] from rfl]
              rw [sizes_append, hlen2]
              unfold runSize
              omega)
        rw [hdrop]
        refine ⟨u, hu, h1, h2, h3, h4, ?_⟩
        intro x
        rw [h5 x]
        have hiter1 : x ∈ iter ⟨t.len + (1 + r.2 - r.1), ys ++ [(a, r.2)]⟩ ↔
            x ∈ ys.flatMap pairIds ∨ (a ≤ x ∧ x ≤ r.2) := by
          simp only [iter, List.flatMap_append, List.flatMap_cons, List.flatMap_nil,
            List.append_nil, List.mem_append]
          rw [mem_pairIds_asc (by omega : a ≤ r.2)]
        have hiter2 : x ∈ t.iter ↔ x ∈ ys.flatMap pairIds ∨ (a ≤ x ∧ x ≤ b) := by
          simp only [iter, hys, List.flatMap_append, List.flatMap_cons, List.flatMap_nil,
            List.append_nil, List.mem_append]
          rw [mem_pairIds_asc hab.1]
        rw [hiter1, hiter2]
        constructor
        · rintro ((hx | hx) | ⟨q, hq, hx⟩)
          · exact Or.inl (Or.inl hx)
          · rcases le_or_lt x b with hxb | hxb
            · exact Or.inl (Or.inr ⟨hx.1, hxb⟩)
            · exact Or.inr ⟨r, by simp, by omega, hx.2⟩
          · exact Or.inr ⟨q, by simp [hq], hx⟩
        · rintro ((hx | hx) | ⟨q, hq, hx⟩)
          · exact Or.inl (Or.inl hx)
          · exact Or.inl (Or.inr ⟨hx.1, by omega⟩)
          · rcases List.mem_cons.mp hq with rfl | hq
            · exact Or.inl (Or.inr ⟨by omega, hx.2⟩)
            · exact Or.inr ⟨q, hq, hx⟩
      · -- append a fresh pair
        have hpush : pushRun L t r = .ok ⟨t.len + (1 + r.2 - r.1), t.data ++ [r]⟩ := by
          simp only [pushRun, hlast]
          rw [if_neg (Nat.not_lt.mpr hr1), if_neg hm]
        rw [foldlM_cons_ok _ _ _ _ _ hpush]
        obtain ⟨u, hu, h1, h2, h3, h4, h5⟩ :=
          ih ⟨t.len + (1 + r.2 - r.1), t.data ++ [r]⟩
            hrs' hsort'
            (by
              intro p hp
              rcases List.mem_append.mp hp with hp | hp
              · exact ht p hp
              · simp at hp
                subst hp
                exact ⟨hr1, hr2⟩)
            (by
              rw [List.pairwise_append]
              refine ⟨hpw, List.pairwise_singleton _ _, ?_⟩
              intro p hp q hq
              simp at hq
              subst hq
              exact hcross p hp q (by simp))
            (by
              rw [List.chain'_append]
              refine ⟨hch, List.chain'_singleton _, ?_⟩
              intro p hp q hq
              simp at hq
              subst hq
              rw [hlast] at hp
              simp at hp
              subst hp
              exact hm)
            (by
              intro p hp q hq
              rcases List.mem_append.mp hp with hp | hp
              · exact hcross p hp q (by simp [hq])
              · simp at hp
                subst hp
                exact hrle q hq)
            (by
              rw [show RunList.len ⟨t.len + (1 + r.2 - r.1), t.data ++ [r]⟩
                  = t.len + (1 + r.2 - r.1) from rfl]
              rw [show RunList.data ⟨t.len + (1 + r.2 - r.1), t.data ++ [r]⟩
                  = t.data ++ [r] from rfl]
              rw [sizes_append, hlen]
              unfold runSize
              omega)
        refine ⟨u, hu, h1, h2, h3, h4, ?_⟩
        intro x
        rw [h5 x]
        have : x ∈ iter ⟨t.len + (1 + r.2 - r.1), t.data ++ [r]⟩ ↔
            x ∈ t.iter ∨ (r.1 ≤ x ∧ x ≤ r.2) := by
          simp only [iter, List.flatMap_append, List.flatMap_cons, List.flatMap_nil,
            List.append_nil, List.mem_append]
          rw [mem_pairIds_asc hr1]
        rw [this]
        constructor
        · rintro ((hx | hx) | ⟨q, hq, hx⟩)
          · exact Or.inl hx
          · exact Or.inr ⟨r, by simp, hx⟩
          · exact Or.inr ⟨q, by simp [hq], hx⟩
        · rintro (hx | ⟨q, hq, hx⟩)
          · exact Or.inl (Or.inl hx)
          · rcases List.mem_cons.mp hq with rfl | hq
            · exact Or.inl (Or.inr hx)
            · exact Or.inr ⟨q, hq, hx⟩

theorem iterRuns_asc (s : RunList) : ∀ r ∈ s.iterRuns, r.1 ≤ r.2 := by
  intro r hr
  unfold iterRuns at hr
  rcases List.mem_flatMap.mp hr with ⟨p, _, hmem⟩
  by_cases h : p.2 < p.1
  · simp [h] at hmem
    rcases hmem with rfl | rfl <;> simp
  · simp [h] at hmem
    subst hmem
    omega

theorem iterRuns_bounded {L : Nat} {s : RunList}
    (hbd : ∀ p ∈ s.data, p.1 < L ∧ p.2 < L) :
    ∀ r ∈ s.iterRuns, r.2 < L := by
  intro r hr
  unfold iterRuns at hr
  rcases List.mem_flatMap.mp hr with ⟨p, hp, hmem⟩
  obtain ⟨h1, h2⟩ := hbd p hp
  by_cases h : p.2 < p.1
  · simp [h] at hmem
    rcases hmem with rfl | rfl <;> simp [h1, h2]
  · simp [h] at hmem
    subst hmem
    exact h2

theorem mem_iter_iff_runs (s : RunList) (x : Nat) :
    x ∈ s.iter ↔ ∃ r ∈ s.iterRuns, r.1 ≤ x ∧ x ≤ r.2 := by
  unfold iter iterRuns
  rw [List.mem_flatMap]
  constructor
  · rintro ⟨p, hp, hmem⟩
    rcases Nat.lt_trichotomy p.1 p.2 with h | h | h
    · rw [show pairIds p = pairIds (p.1, p.2) from rfl, mem_pairIds_asc (Nat.le_of_lt h)] at hmem
      exact ⟨(p.1, p.2), List.mem_flatMap.mpr ⟨p, hp, by simp [Nat.lt_asymm h]⟩, hmem⟩
    · rw [show pairIds p = pairIds (p.1, p.2) from rfl, mem_pairIds_asc (Nat.le_of_eq h)] at hmem
      exact ⟨(p.1, p.2), List.mem_flatMap.mpr ⟨p, hp, by simp [show ¬ p.2 < p.1 by omega]⟩, hmem⟩
    · rw [show pairIds p = pairIds (p.1, p.2) from rfl, pairIds_desc h] at hmem
      simp only [List.mem_cons, List.mem_singleton, List.not_mem_nil, or_false] at hmem
      rcases hmem with rfl | rfl
      · exact ⟨(p.2, p.2), List.mem_flatMap.mpr ⟨p, hp, by simp [h]⟩, by omega⟩
      · exact ⟨(p.1, p.1), List.mem_flatMap.mpr ⟨p, hp, by simp [h]⟩, by omega⟩
  · rintro ⟨r, hr, hx1, hx2⟩
    rcases List.mem_flatMap.mp hr with ⟨p, hp, hmem⟩
    refine ⟨p, hp, ?_⟩
    by_cases h : p.2 < p.1
    · simp [h] at hmem
      rcases hmem with rfl | rfl
      · have hx : x = p.2 := by simp at hx1 hx2; omega
        subst hx
        exact snd_mem_pairIds p
      · have hx : x = p.1 := by simp at hx1 hx2; omega
        subst hx
        exact fst_mem_pairIds p
    · simp [h] at hmem
      subst hmem
      rw [show pairIds r = pairIds (r.1, r.2) from rfl, mem_pairIds_asc (by omega)]
      exact ⟨hx1, hx2⟩

/-- If all stored pairs are ascending, `iter_runs` returns the pairs
themselves. -/
theorem flatMap_runs_of_asc :
    ∀ l : List (Nat × Nat), (∀ p ∈ l, p.1 ≤ p.2) →
    (l.flatMap fun p => if p.2 < p.1 then [(p.2, p.2), (p.1, p.1)] else [(p.1, p.2)]) = l := by
  intro l
  induction l with
  | nil => intro _; rfl
  | cons p ps ih =>
    intro h
    rw [List.flatMap_cons, ih (fun q hq => h q (by simp [hq]))]
    have hp := h p (by simp)
    simp [show ¬ p.2 < p.1 by omega]

theorem iterRuns_of_asc (s : RunList) (h : ∀ p ∈ s.data, p.1 ≤ p.2) :
    s.iterRuns = s.data := by
  unfold iterRuns
  exact flatMap_runs_of_asc s.data h

/-- Folding `push_run` over runs whose merge condition never fires with the
accumulated tail just appends them all. -/
theorem fold_of_chain (L : Nat) (ds : List (Nat × Nat)) :
    ∀ t : RunList, (∀ p ∈ ds, p.1 ≤ p.2) →
    List.Chain' (NM L) (t.data ++ ds) →
    ds.foldlM (pushRun L) t = .ok ⟨t.len + sizes ds, t.data ++ ds⟩ := by
  induction ds with
  | nil =>
    intro t _ _
    show Except.ok t = _
    rcases t with ⟨len, data⟩
    simp [sizes]
  | cons d ds ih =>
    intro t hasc hch
    have hd1 := hasc d (by simp)
    have hpush : pushRun L t d = .ok ⟨t.len + runSize d, t.data ++ [d]⟩ := by
      match hlast : t.data.getLast? with
      | none =>
        simp [pushRun, hlast, Nat.not_lt.mpr hd1, runSize]
      | some (a, b) =>
        have hnm : NM L (a, b) d := by
          have h3 := (List.chain'_append.mp hch).2.2
          exact h3 (a, b) (by simp [hlast]) d (by simp)
        simp only [pushRun, hlast]
        rw [if_neg (Nat.not_lt.mpr hd1)]
        rw [if_neg hnm]
        rfl
    rw [foldlM_cons_ok _ _ _ _ _ hpush]
    have := ih ⟨t.len + runSize d, t.data ++ [d]⟩
      (fun p hp => hasc p (by simp [hp]))
      (by
        show List.Chain' (NM L) ((t.data ++ [d]) ++ ds)
        rw [List.append_assoc]
        simpa using hch)
    rw [this]
    have hlen : t.len + runSize d + sizes ds = t.len + sizes (d :: ds) := by
      simp [sizes]
      omega
    have hdata : (t.data ++ [d]) ++ ds = t.data ++ d :: ds := by simp
    rw [hlen, hdata]

/-- Separation of two ascending runs: the first ends strictly before the
second starts. -/
def SEP (p q : Nat × Nat) : Prop := p.2 < q.1

/-- Strict comparison of run starts. -/
def runLT (p q : Nat × Nat) : Prop := p.1 < q.1

instance : IsAntisymm (Nat × Nat) runLT :=
  ⟨fun p q h h' => absurd h' (by unfold runLT at *; omega)⟩

/-- Characterization of `RunList::sort` for lists of in-range ids: it always
succeeds, its output stores ascending pairs sorted by start with no two
consecutive pairs mergeable, its `len` is the total run size, and the stored
id set is unchanged. -/
theorem sort_spec (L : Nat) (s : RunList)
    (hbd : ∀ p ∈ s.data, p.1 < L ∧ p.2 < L) :
    ∃ u, s.sort L = .ok u ∧
      (∀ p ∈ u.data, p.1 ≤ p.2 ∧ p.2 < L) ∧
      List.Pairwise runLE u.data ∧
      List.Chain' (NM L) u.data ∧
      u.len = sizes u.data ∧
      (∀ x, x ∈ u.iter ↔ x ∈ s.iter) := by
  have hmem : ∀ r : Nat × Nat,
      r ∈ List.insertionSort runLE s.iterRuns ↔ r ∈ s.iterRuns :=
    fun r => (List.perm_insertionSort runLE s.iterRuns).mem_iff
  have h1 : ∀ r ∈ List.insertionSort runLE s.iterRuns, r.1 ≤ r.2 ∧ r.2 < L := by
    intro r hr
    exact ⟨iterRuns_asc s r ((hmem r).mp hr), iterRuns_bounded hbd r ((hmem r).mp hr)⟩
  have h2 : List.Pairwise runLE (List.insertionSort runLE s.iterRuns) :=
    List.sorted_insertionSort runLE s.iterRuns
  obtain ⟨u, hu, ha, hb, hc, hd, he⟩ :=
    fold_pushRun_invariant L (List.insertionSort runLE s.iterRuns) ⟨0, []⟩
      h1 h2 (by simp) (by simp) (by simp) (by simp) rfl
  refine ⟨u, hu, ha, hb, hc, hd, ?_⟩
  intro x
  rw [he x, mem_iter_iff_runs s x]
  constructor
  · rintro (hx | ⟨r, hr, hx⟩)
    · simp [iter] at hx
    · exact ⟨r, (hmem r).mp hr, hx⟩
  · rintro ⟨r, hr, hx⟩
    exact Or.inr ⟨r, (hmem r).mpr hr, hx⟩

/-- A `push_run`-fold over separated, start-sorted runs produces pairwise
separated stored pairs. -/
theorem fold_pushRun_disjoint (L : Nat) (rs : List (Nat × Nat)) :
    ∀ t u : RunList,
    (∀ r ∈ rs, r.1 ≤ r.2 ∧ r.2 < L) →
    List.Pairwise SEP rs →
    (∀ p ∈ t.data, p.1 ≤ p.2 ∧ p.2 < L) →
    List.Pairwise SEP t.data →
    (∀ p ∈ t.data, ∀ r ∈ rs, p.2 < r.1) →
    rs.foldlM (pushRun L) t = .ok u →
    List.Pairwise SEP u.data := by
  induction rs with
  | nil =>
    intro t u _ _ _ h4 _ hfold
    have h : t = u := Except.ok.inj hfold
    exact h ▸ h4
  | cons r rs ih =>
    intro t u hrs hsep ht hpw hcross hfold
    obtain ⟨hr1, hr2⟩ := hrs r (by simp)
    have hrs' : ∀ q ∈ rs, q.1 ≤ q.2 ∧ q.2 < L := fun q hq => hrs q (by simp [hq])
    have hsep' : List.Pairwise SEP rs := (List.pairwise_cons.mp hsep).2
    have hrsep : ∀ q ∈ rs, r.2 < q.1 := (List.pairwise_cons.mp hsep).1
    match hlast : t.data.getLast? with
    | none =>
      have hd : t.data = [] := by simpa using hlast
      have hpush : pushRun L t r = .ok ⟨t.len + (1 + r.2 - r.1), t.data ++ [r]⟩ := by
        simp [pushRun, hlast, Nat.not_lt.mpr hr1]
      rw [foldlM_cons_ok _ _ _ _ _ hpush] at hfold
      refine ih ⟨t.len + (1 + r.2 - r.1), t.data ++ [r]⟩ u hrs' hsep' ?_ ?_ ?_ hfold
      · intro p hp
        rw [hd] at hp
        simp at hp
        subst hp
        exact ⟨hr1, hr2⟩
      · rw [hd]
        simpa using List.pairwise_singleton _ _
      · intro p hp q hq
        rw [hd] at hp
        simp at hp
        subst hp
        exact hrsep q hq
    | some (a, b) =>
      obtain ⟨ys, hys⟩ := List.getLast?_eq_some_iff.mp hlast
      have hab : a ≤ b ∧ b < L := ht (a, b) (by rw [hys]; simp)
      by_cases hm : a ≤ b ∧ step1 L b = r.1
      · have hbr : b + 1 = r.1 := by
          have := step1_of_lt hab.2
          omega
        have hpush : pushRun L t r =
            .ok ⟨t.len + (1 + r.2 - r.1), t.data.dropLast ++ [(a, r.2)]⟩ := by
          simp [pushRun, hlast, Nat.not_lt.mpr hr1, hm]
        have hdrop : t.data.dropLast = ys := by rw [hys]; exact List.dropLast_concat
        rw [foldlM_cons_ok _ _ _ _ _ hpush, hdrop] at hfold
        have hyssep : List.Pairwise SEP ys ∧ ∀ p ∈ ys, SEP p (a, b) := by
          have := List.pairwise_append.mp (hys ▸ hpw)
          exact ⟨this.1, fun p hp => this.2.2 p hp (a, b) (by simp)⟩
        refine ih ⟨t.len + (1 + r.2 - r.1), ys ++ [(a, r.2)]⟩ u hrs' hsep' ?_ ?_ ?_ hfold
        · intro p hp
          rcases List.mem_append.mp hp with hp | hp
          · exact ht p (by rw [hys]; simp [hp])
          · simp at hp
            subst hp
            exact ⟨by omega, hr2⟩
        · rw [List.pairwise_append]
          refine ⟨hyssep.1, List.pairwise_singleton _ _, ?_⟩
          intro p hp q hq
          simp at hq
          subst hq
          have := hyssep.2 p hp
          unfold SEP at *
          omega
        · intro p hp q hq
          rcases List.mem_append.mp hp with hp | hp
          · exact hcross p (by rw [hys]; simp [hp]) q (by simp [hq])
          · simp at hp
            subst hp
            exact hrsep q hq
      · have hpush : pushRun L t r = .ok ⟨t.len + (1 + r.2 - r.1), t.data ++ [r]⟩ := by
          simp only [pushRun, hlast]
          rw [if_neg (Nat.not_lt.mpr hr1), if_neg hm]
        rw [foldlM_cons_ok _ _ _ _ _ hpush] at hfold
        refine ih ⟨t.len + (1 + r.2 - r.1), t.data ++ [r]⟩ u hrs' hsep' ?_ ?_ ?_ hfold
        · intro p hp
          rcases List.mem_append.mp hp with hp | hp
          · exact ht p hp
          · simp at hp
            subst hp
            exact ⟨hr1, hr2⟩
        · rw [List.pairwise_append]
          refine ⟨hpw, List.pairwise_singleton _ _, ?_⟩
          intro p hp q hq
          simp at hq
          subst hq
          exact hcross p hp q (by simp)
        · intro p hp q hq
          rcases List.mem_append.mp hp with hp | hp
          · exact hcross p hp q (by simp [hq])
          · simp at hp
            subst hp
            exact hrsep q hq

/-- Insertion-sorting runs by start is injective on the start multiset when
the starts are pairwise distinct. -/
theorem insertionSort_eq_of_perm_of_nodup {l₁ l₂ : List (Nat × Nat)}
    (hperm : l₁.Perm l₂) (hnd : (l₁.map Prod.fst).Nodup) :
    List.insertionSort runLE l₁ = List.insertionSort runLE l₂ := by
  have hp : (List.insertionSort runLE l₁).Perm (List.insertionSort runLE l₂) :=
    (List.perm_insertionSort runLE l₁).trans
      (hperm.trans (List.perm_insertionSort runLE l₂).symm)
  have hstrict : ∀ l : List (Nat × Nat), (l.map Prod.fst).Nodup →
      List.Sorted runLE (List.insertionSort runLE l) →
      (List.insertionSort runLE l).Perm l →
      List.Sorted runLT (List.insertionSort runLE l) := by
    intro l hl hsorted hpl
    have hnd2 : ((List.insertionSort runLE l).map Prod.fst).Nodup := by
      have := (hpl.map Prod.fst).nodup_iff
      exact this.mpr hl
    have hne : List.Pairwise (fun p q : Nat × Nat => p.1 ≠ q.1)
        (List.insertionSort runLE l) := List.pairwise_map.mp hnd2
    exact (hsorted.and hne).imp (by
      rintro a b ⟨h1, h2⟩
      unfold runLE at h1
      unfold runLT
      omega)
  have hnd₂ : (l₂.map Prod.fst).Nodup := by
    have := (hperm.map Prod.fst).nodup_iff
    exact this.mp hnd
  exact List.eq_of_perm_of_sorted hp
    (hstrict l₁ hnd (List.sorted_insertionSort runLE l₁) (List.perm_insertionSort runLE l₁))
    (hstrict l₂ hnd₂ (List.sorted_insertionSort runLE l₂) (List.perm_insertionSort runLE l₂))

theorem isEmpty_iff_data_nil (s : RunList) : s.isEmpty = true ↔ s.data = [] := by
  unfold isEmpty
  exact List.isEmpty_iff

theorem extend_empty_isEmpty (L : Nat) (ids : List Nat) :
    (extend L empty ids).isEmpty = true ↔ ids = [] := by
  constructor
  · intro h
    by_contra hne
    exact extend_ne_nil L ids empty hne ((isEmpty_iff_data_nil _).mp h)
  · rintro rfl
    rfl

theorem dataBounded_iff_iter_lt (L : Nat) (s : RunList) :
    (∀ p ∈ s.data, p.1 < L ∧ p.2 < L) ↔ (∀ x ∈ s.iter, x < L) := by
  constructor
  · intro h x hx
    rcases List.mem_flatMap.mp hx with ⟨p, hp, hmem⟩
    obtain ⟨h1, h2⟩ := h p hp
    rcases Nat.lt_trichotomy p.1 p.2 with hc | hc | hc
    · rw [show pairIds p = pairIds (p.1, p.2) from rfl,
        mem_pairIds_asc (by omega)] at hmem
      omega
    · rw [show pairIds p = pairIds (p.1, p.2) from rfl,
        mem_pairIds_asc (by omega)] at hmem
      omega
    · rw [show pairIds p = pairIds (p.1, p.2) from rfl, pairIds_desc hc] at hmem
      simp at hmem
      rcases hmem with rfl | rfl <;> omega
  · intro h p hp
    exact ⟨h p.1 (List.mem_flatMap.mpr ⟨p, hp, fst_mem_pairIds p⟩),
      h p.2 (List.mem_flatMap.mpr ⟨p, hp, snd_mem_pairIds p⟩)⟩

theorem extend_dataBounded (L : Nat) (ids : List Nat) (s : RunList)
    (hs : ∀ p ∈ s.data, p.1 < L ∧ p.2 < L) (hids : ∀ x ∈ ids, x < L) :
    ∀ p ∈ (extend L s ids).data, p.1 < L ∧ p.2 < L := by
  rw [dataBounded_iff_iter_lt]
  intro x hx
  have hb : Bounded L s := by
    intro y hy
    exact Nat.le_of_lt ((dataBounded_iff_iter_lt L s).mp hs y hy)
  have hids' : ∀ y ∈ ids, y ≤ L := fun y hy => Nat.le_of_lt (hids y hy)
  rcases (mem_extend_iff L ids s hb hids' x).mp hx with hx | hx
  · exact hids x hx
  · exact (dataBounded_iff_iter_lt L s).mp hs x hx

end RunList

/-- C2 counterexample.  Pushing a duplicate id is not a no-op when the id lies
strictly inside the run stored in the last pair: after `push(0), push(1),
push(2), push(3)` the list stores the single run `(0, 3)`; pushing `2` again
appends the singleton pair `(2, 2)` (the commented-out dedup shortcut in
`RunList::push` is disabled), so `iter().count()` grows from 4 to 5 even
though `2` was already in the list. -/
theorem push_duplicate_in_run_double_counts :
    2 ∈ (RunList.extend 255 .empty [0, 1, 2, 3]).iter ∧
    (RunList.push 255 (RunList.extend 255 .empty [0, 1, 2, 3]) 2).count
      = (RunList.extend 255 .empty [0, 1, 2, 3]).count + 1 ∧
    (RunList.push 255 (RunList.extend 255 .empty [0, 1, 2, 3]) 2).data
      = [(0, 3), (2, 2)] := by
  decide

/-- C2 (amended).  For every `RunList` of in-range ids whose `len` equals
`iter().count()`: `push(x)` keeps `len() = iter().count()`; when `x ∉ list`
the count grows by exactly 1; but when `x ∈ list` the push is a no-op only in
the two explicit dedup arms (`x` an endpoint of the last stored pair with no
merge applicable) and otherwise also grows the count by 1; and `len()` equals
`iter().count()` for every list built by `push`es from the empty list. -/
theorem push_count_characterization (L : Nat) (s : RunList) (x : Nat)
    (hb : RunList.Bounded L s) (hx : x ≤ L) (hlen : s.len = s.count) :
    ((RunList.push L s x).len = (RunList.push L s x).count) ∧
    (x ∉ s.iter → (RunList.push L s x).count = s.count + 1) ∧
    (∀ ids : List Nat, (∀ y ∈ ids, y ≤ L) →
      (RunList.extend L .empty ids).len = (RunList.extend L .empty ids).count) := by
  refine ⟨RunList.len_count_push L s x hb hx hlen, ?_, ?_⟩
  · exact RunList.count_push_of_not_mem L s x hb hx
  · intro ids hids
    exact RunList.len_count_extend L ids .empty (by intro y hy; simp [RunList.iter, RunList.empty] at hy) hids rfl

/-- Concrete instantiation of `push_count_characterization`: pushing the fresh
id 5 onto the list built from `[0, 1]` bumps the count from 2 to 3. -/
theorem push_count_characterization_witness :
    (RunList.push 255 (RunList.extend 255 .empty [0, 1]) 5).count
      = (RunList.extend 255 .empty [0, 1]).count + 1 := by
  have h := push_count_characterization 255 (RunList.extend 255 .empty [0, 1]) 5
    (by decide) (by decide) (by decide)
  exact h.2.1 (by decide)

/-- C8 counterexample.  Two `RunList`s reachable through the public API —
`push(3), push(4), push(3)` gives data `[(3,4),(3,3)]`, while
`push_run(3..=3), push_run(3..=4)` gives data `[(3,3),(3,4)]` — hold the same
multiset of runs `{3..=3, 3..=4}`, yet `sort()` (a stable sort by run start
followed by `push_run` re-insertion) maps each to itself: the sorted data
differ, and the sorted runs are not disjoint (both contain id 3). -/
theorem sort_not_canonical_on_equal_run_multisets :
    (RunList.extend 255 .empty [3, 4, 3] = ⟨3, [(3, 4), (3, 3)]⟩) ∧
    ((RunList.pushRun 255 .empty (3, 3)) = .ok ⟨1, [(3, 3)]⟩ ∧
      RunList.pushRun 255 ⟨1, [(3, 3)]⟩ (3, 4) = .ok ⟨3, [(3, 3), (3, 4)]⟩) ∧
    (RunList.iterRuns ⟨3, [(3, 3), (3, 4)]⟩).Perm
      (RunList.iterRuns ⟨3, [(3, 4), (3, 3)]⟩) ∧
    RunList.sort 255 ⟨3, [(3, 3), (3, 4)]⟩ = .ok ⟨3, [(3, 3), (3, 4)]⟩ ∧
    RunList.sort 255 ⟨3, [(3, 4), (3, 3)]⟩ = .ok ⟨3, [(3, 4), (3, 3)]⟩ ∧
    RunList.sort 255 ⟨3, [(3, 3), (3, 4)]⟩ ≠ RunList.sort 255 ⟨3, [(3, 4), (3, 3)]⟩ ∧
    (3 ∈ RunList.pairIds (3, 3) ∧ 3 ∈ RunList.pairIds (3, 4)) := by
  refine ⟨rfl, ⟨rfl, rfl⟩, List.Perm.swap _ _ _, rfl, rfl, ?_, ?_⟩
  · intro h
    exact absurd (Except.ok.inj h) (by decide)
  · constructor <;> simp [RunList.pairIds]

/-- C8 (amended).  For every `RunList` whose stored ids are below the `LAST`
sentinel: `sort()` succeeds and produces ascending inclusive ranges sorted by
start; if the list's runs are pairwise disjoint the sorted runs are pairwise
separated (disjoint); `sort()` is idempotent; the stored id set is preserved;
and two `RunList`s holding the same multiset of runs have identical data
after `sort()` provided the run starts are pairwise distinct. -/
theorem sort_canonicalization (L : Nat) (s s₂ : RunList)
    (hbd : ∀ p ∈ s.data, p.1 < L ∧ p.2 < L) :
    (∃ u, s.sort L = .ok u ∧
      (∀ p ∈ u.data, p.1 ≤ p.2) ∧
      List.Pairwise RunList.runLE u.data ∧
      (List.Pairwise (fun r q => r.2 < q.1 ∨ q.2 < r.1) s.iterRuns →
        List.Pairwise RunList.SEP u.data) ∧
      u.sort L = .ok u ∧
      (∀ x, x ∈ u.iter ↔ x ∈ s.iter)) ∧
    (s.iterRuns.Perm s₂.iterRuns → (s.iterRuns.map Prod.fst).Nodup →
      s.sort L = s₂.sort L) := by
  constructor
  · obtain ⟨u, hu, ha, hb, hc, hd, he⟩ := RunList.sort_spec L s hbd
    refine ⟨u, hu, fun p hp => (ha p hp).1, hb, ?_, ?_, he⟩
    · -- disjointness under pairwise-disjoint runs
      intro hdisj
      have h1 : ∀ r ∈ List.insertionSort RunList.runLE s.iterRuns,
          r.1 ≤ r.2 ∧ r.2 < L := by
        intro r hr
        have hr' := (List.perm_insertionSort RunList.runLE s.iterRuns).mem_iff.mp hr
        exact ⟨RunList.iterRuns_asc s r hr', RunList.iterRuns_bounded hbd r hr'⟩
      have hdisj' : List.Pairwise (fun r q : Nat × Nat => r.2 < q.1 ∨ q.2 < r.1)
          (List.insertionSort RunList.runLE s.iterRuns) :=
        ((List.perm_insertionSort RunList.runLE s.iterRuns).pairwise_iff
          (fun h => Or.symm h)).mpr hdisj
      have hsorted : List.Pairwise RunList.runLE
          (List.insertionSort RunList.runLE s.iterRuns) :=
        List.sorted_insertionSort RunList.runLE s.iterRuns
      have hsep : List.Pairwise RunList.SEP
          (List.insertionSort RunList.runLE s.iterRuns) := by
        refine List.Pairwise.imp_of_mem ?_ (hsorted.and hdisj')
        rintro r q hr hq ⟨h1', h2'⟩
        have har := (h1 r hr).1
        have haq := (h1 q hq).1
        unfold RunList.runLE at h1'
        unfold RunList.SEP
        rcases h2' with h | h
        · exact h
        · omega
      exact RunList.fold_pushRun_disjoint L
        (List.insertionSort RunList.runLE s.iterRuns) ⟨0, []⟩ u
        h1 hsep (by simp) (by simp) (by simp) hu
    · -- idempotence
      have hasc : ∀ p ∈ u.data, p.1 ≤ p.2 := fun p hp => (ha p hp).1
      have hruns : u.iterRuns = u.data := RunList.iterRuns_of_asc u hasc
      have hsortid : List.insertionSort RunList.runLE u.data = u.data :=
        List.Sorted.insertionSort_eq hb
      have hfold := RunList.fold_of_chain L u.data ⟨0, []⟩ hasc (by simpa using hc)
      show (List.insertionSort RunList.runLE u.iterRuns).foldlM
          (fun acc r => RunList.pushRun L acc r) ⟨0, []⟩ = Except.ok u
      rw [hruns, hsortid]
      rw [show (u.data.foldlM (fun acc r => RunList.pushRun L acc r) (⟨0, []⟩ : RunList))
          = u.data.foldlM (RunList.pushRun L) ⟨0, []⟩ from rfl]
      rw [hfold]
      rcases u with ⟨ulen, udata⟩
      simp only [Except.ok.injEq]
      simp at hd
      rw [RunList.mk.injEq]
      exact ⟨by simpa using hd.symm, by simp⟩
  · intro hperm hnd
    show (List.insertionSort RunList.runLE s.iterRuns).foldlM
        (fun acc r => RunList.pushRun L acc r) ⟨0, []⟩
      = (List.insertionSort RunList.runLE s₂.iterRuns).foldlM
        (fun acc r => RunList.pushRun L acc r) ⟨0, []⟩
    rw [RunList.insertionSort_eq_of_perm_of_nodup hperm hnd]

/-- Concrete instantiation of `sort_canonicalization`: the two stores of the
disjoint runs `{0..=1, 4..=5}` sort to identical data. -/
theorem sort_canonicalization_witness :
    RunList.sort 255 ⟨4, [(4, 5), (0, 1)]⟩ = RunList.sort 255 ⟨4, [(0, 1), (4, 5)]⟩ :=
  (sort_canonicalization 255 ⟨4, [(4, 5), (0, 1)]⟩ ⟨4, [(0, 1), (4, 5)]⟩
    (by decide)).2 (List.Perm.swap _ _ _) (by decide)

/-- Embedding of `IdList<M>` (src/id.rs:385-392): free list, push/delete
staging, and the exclusive upper bound on raw ids. -/
structure IdList where
  free : RunList
  pushing : RunList
  deleting : RunList
  outerCapacity : Nat
deriving DecidableEq, Repr

namespace IdList

/-- Embedding of `IdList::next` (src/id.rs:577-585): `free.last()` or, if the
free list is empty, the fresh id `outer_capacity`. -/
def next (s : IdList) : Nat :=
  (s.free.last).getD s.outerCapacity

/-- Embedding of `IdList::recycle_id` (src/id.rs:519-529).  Returns the id
handed out together with the updated list; the source distinguishes a recycled
id (`Ok`, drawn from `free` by `pop`) from a fresh one (`Err`, extending
`outer_capacity`), and in both cases records the id in `pushing`. -/
def recycleId (L : Nat) (s : IdList) : Nat × IdList :=
  match s.free.pop L with
  | some (id, free') =>
    (id, { s with free := free', pushing := s.pushing.push L id })
  | none =>
    (s.outerCapacity,
     { s with outerCapacity := s.outerCapacity + 1,
              pushing := s.pushing.push L s.outerCapacity })

/-- Embedding of the inner peek loop of `CheckedIter::next`
(src/id.rs:741-757): compare the candidate id against the head of the
(peekable) free-list iterator; `Equal` breaks without yielding, `Greater`
consumes the head and retries, `Less` (or an exhausted free iterator) yields.
Returns whether the id is yielded plus the remaining free-iterator state. -/
def ciSkip (id : Nat) : List Nat → Bool × List Nat
  | [] => (true, [])
  | e :: fs =>
    if id = e then (false, e :: fs)
    else if e < id then ciSkip id fs
    else (true, e :: fs)

/-- Embedding of the outer loop of `CheckedIter::next`, collecting every
yielded id: the range steps one id at a time while `start < end`, so `n` is
the structural count of remaining range elements (`end - start`). -/
def ciCollectAux : Nat → Nat → List Nat → List Nat
  | 0, _, _ => []
  | n + 1, start, free =>
    match ciSkip start free with
    | (true, fs) => start :: ciCollectAux n (start + 1) fs
    | (false, fs) => ciCollectAux n (start + 1) fs

/-- Embedding of `IdList::write_deletions` (src/id.rs:437-448): zero
`deleting.len`, drain `deleting.data` onto the end of `free.data`, then
`free.sort()` (which recomputes `free.len` from scratch). -/
def writeDeletions (L : Nat) (s : IdList) : Except String IdList :=
  match RunList.sort L ⟨s.free.len, s.free.data ++ s.deleting.data⟩ with
  | .error e => .error e
  | .ok free' => .ok { s with free := free', deleting := ⟨0, []⟩ }

/-- Embedding of `IdList::flush` (src/id.rs:411-436), with the effect of
`universe.submit_event` on this table's two staging lists abstracted into the
handler parameters: during the `Pushed` event the handlers leave the ids `
(hp pushing).1` in the (emptied) `pushing` list and push the ids
`(hp pushing).2` onto `deleting`; during the `Deleted` event they leave the
ids `hd deleting` in the (emptied) `deleting` list.  `tp`/`td` say whether a
`Pushed`/`Deleted` tracker is registered (`TRACK_PUSH`/`TRACK_DELETE`).  After
each event the swapped-back buffer must be empty, else
`panic!("changed during flush")`. -/
def flush (L : Nat) (tp td : Bool) (hp : RunList → List Nat × List Nat)
    (hd : RunList → List Nat) (s : IdList) : Except String IdList :=
  let phase1 : Except String IdList :=
    if s.pushing.isEmpty then .ok s
    else if tp then
      let eff := hp s.pushing
      let addP := RunList.extend L .empty eff.1
      let del' := RunList.extend L s.deleting eff.2
      if addP.isEmpty then .ok { s with pushing := ⟨0, []⟩, deleting := del' }
      else .error "changed during flush"
    else .ok { s with pushing := ⟨0, []⟩ }
  match phase1 with
  | .error e => .error e
  | .ok t =>
    if t.deleting.isEmpty then .ok t
    else if td then
      if (RunList.extend L .empty (hd t.deleting)).isEmpty then t.writeDeletions L
      else .error "changed during flush"
    else t.writeDeletions L

/-- The state of this table's `deleting` list at the start of `flush`'s
delete phase: the original list plus whatever a `Pushed` handler appended
while the push event was being processed. -/
def deletingAtDeletePhase (L : Nat) (tp : Bool)
    (hp : RunList → List Nat × List Nat) (s : IdList) : RunList :=
  if s.pushing.isEmpty = false ∧ tp = true then
    RunList.extend L s.deleting (hp s.pushing).2
  else s.deleting

/-- The ids yielded by `IdList::removing` (src/id.rs:476-503): `ListRemoving`
wraps each id produced by `CheckedIter::new(outer_capacity, &self.free)` in an
`RmId` deleter handle; the iterator walks the range `0..outer_capacity`
against the free list only — the `deleting` cell is touched solely when a
handle's `remove()` is called.  (`IdList::iter` uses the same `CheckedIter`.) -/
def removingIds (s : IdList) : List Nat :=
  ciCollectAux s.outerCapacity 0 s.free.iter

end IdList

theorem ciSkip_yield_iff (id : Nat) (free : List Nat)
    (hs : free.Sorted (· ≤ ·)) :
    (IdList.ciSkip id free).1 = true ↔ id ∉ free := by
  induction free with
  | nil => simp [IdList.ciSkip]
  | cons e fs ih =>
    rcases List.sorted_cons.mp hs with ⟨hle, hs'⟩
    by_cases h1 : id = e
    · subst h1
      simp [IdList.ciSkip]
    · by_cases h2 : e < id
      · rw [show IdList.ciSkip id (e :: fs) = IdList.ciSkip id fs by
          simp [IdList.ciSkip, h1, h2]]
        rw [ih hs']
        simp [List.mem_cons, h1]
      · have hlt : id < e := by omega
        rw [show IdList.ciSkip id (e :: fs) = (true, e :: fs) by
          simp [IdList.ciSkip, h1, h2]]
        have : id ∉ fs := fun hmem => by have := hle id hmem; omega
        simp [List.mem_cons, h1, this]

theorem ciSkip_rest_mem (id : Nat) (free : List Nat) :
    ∀ y, id < y → (y ∈ (IdList.ciSkip id free).2 ↔ y ∈ free) := by
  induction free with
  | nil => simp [IdList.ciSkip]
  | cons e fs ih =>
    intro y hy
    by_cases h1 : id = e
    · subst h1; simp [IdList.ciSkip]
    · by_cases h2 : e < id
      · rw [show IdList.ciSkip id (e :: fs) = IdList.ciSkip id fs by
          simp [IdList.ciSkip, h1, h2]]
        rw [ih y hy]
        have : y ≠ e := by omega
        simp [List.mem_cons, this]
      · rw [show IdList.ciSkip id (e :: fs) = (true, e :: fs) by
          simp [IdList.ciSkip, h1, h2]]

theorem ciSkip_rest_sorted (id : Nat) (free : List Nat)
    (hs : free.Sorted (· ≤ ·)) : (IdList.ciSkip id free).2.Sorted (· ≤ ·) := by
  induction free with
  | nil => simpa [IdList.ciSkip] using hs
  | cons e fs ih =>
    rcases List.sorted_cons.mp hs with ⟨_, hs'⟩
    by_cases h1 : id = e
    · subst h1; simpa [IdList.ciSkip] using hs
    · by_cases h2 : e < id
      · rw [show IdList.ciSkip id (e :: fs) = IdList.ciSkip id fs by
          simp [IdList.ciSkip, h1, h2]]
        exact ih hs'
      · rw [show IdList.ciSkip id (e :: fs) = (true, e :: fs) by
          simp [IdList.ciSkip, h1, h2]]
        exact hs

theorem ciCollectAux_filter (n : Nat) :
    ∀ (start : Nat) (free : List Nat), free.Sorted (· ≤ ·) →
      IdList.ciCollectAux n start free
        = (List.range' start n).filter (fun x => x ∉ free) := by
  induction n with
  | zero => intro start free _; simp [IdList.ciCollectAux]
  | succ k ih =>
    intro start free hs
    rw [List.range'_succ]
    match hsk : IdList.ciSkip start free with
    | (true, fs) =>
      have hmem : start ∉ free := by
        have := (ciSkip_yield_iff start free hs).mp (by rw [hsk])
        exact this
      have hcong : ∀ x ∈ List.range' (start + 1) k,
          (decide (x ∉ fs)) = (decide (x ∉ free)) := by
        intro x hx
        have hx1 : start < x := by
          have := List.mem_range'_1.mp hx
          omega
        have := ciSkip_rest_mem start free x hx1
        rw [hsk] at this
        simp only [decide_eq_decide]
        exact not_congr this
      have hfs : fs.Sorted (· ≤ ·) := by
        have := ciSkip_rest_sorted start free hs
        rwa [hsk] at this
      rw [show IdList.ciCollectAux (k + 1) start free
          = start :: IdList.ciCollectAux k (start + 1) fs by
        simp [IdList.ciCollectAux, hsk]]
      rw [ih (start + 1) fs hfs, List.filter_cons]
      rw [List.filter_congr hcong]
      simp [hmem]
    | (false, fs) =>
      have hmem : start ∈ free := by
        by_contra hmem
        have := (ciSkip_yield_iff start free hs).mpr hmem
        rw [hsk] at this
        simp at this
      have hcong : ∀ x ∈ List.range' (start + 1) k,
          (decide (x ∉ fs)) = (decide (x ∉ free)) := by
        intro x hx
        have hx1 : start < x := by
          have := List.mem_range'_1.mp hx
          omega
        have := ciSkip_rest_mem start free x hx1
        rw [hsk] at this
        simp only [decide_eq_decide]
        exact not_congr this
      have hfs : fs.Sorted (· ≤ ·) := by
        have := ciSkip_rest_sorted start free hs
        rwa [hsk] at this
      rw [show IdList.ciCollectAux (k + 1) start free
          = IdList.ciCollectAux k (start + 1) fs by
        simp [IdList.ciCollectAux, hsk]]
      rw [ih (start + 1) fs hfs, List.filter_cons]
      rw [List.filter_congr hcong]
      simp [hmem]

theorem writeDeletions_spec (L : Nat) (t : IdList)
    (hfree : ∀ p ∈ t.free.data, p.1 < L ∧ p.2 < L)
    (hdel : ∀ p ∈ t.deleting.data, p.1 < L ∧ p.2 < L) :
    ∃ fr, RunList.sort L ⟨t.free.len, t.free.data ++ t.deleting.data⟩ = .ok fr ∧
      IdList.writeDeletions L t = .ok { t with free := fr, deleting := ⟨0, []⟩ } := by
  have hbd : ∀ p ∈ (⟨t.free.len, t.free.data ++ t.deleting.data⟩ : RunList).data,
      p.1 < L ∧ p.2 < L := by
    intro p hp
    rcases List.mem_append.mp hp with hp | hp
    · exact hfree p hp
    · exact hdel p hp
  obtain ⟨fr, hfr, _⟩ := RunList.sort_spec L _ hbd
  refine ⟨fr, hfr, ?_⟩
  unfold IdList.writeDeletions
  rw [hfr]

/-- Evaluation of `flush` once the phase-1 (push event) outcome is fixed. -/
theorem flush_phase2_eval (L : Nat) (td : Bool) (hd : RunList → List Nat)
    (t : IdList)
    (hfree : ∀ p ∈ t.free.data, p.1 < L ∧ p.2 < L)
    (hdel : ∀ p ∈ t.deleting.data, p.1 < L ∧ p.2 < L) :
    ((t.deleting.isEmpty = true → (if t.deleting.isEmpty then .ok t
        else if td then
          if (RunList.extend L .empty (hd t.deleting)).isEmpty then t.writeDeletions L
          else Except.error "changed during flush"
        else t.writeDeletions L) = Except.ok t)) ∧
    (t.deleting.isEmpty = false → td = true → hd t.deleting ≠ [] →
      (if t.deleting.isEmpty then .ok t
        else if td then
          if (RunList.extend L .empty (hd t.deleting)).isEmpty then t.writeDeletions L
          else Except.error "changed during flush"
        else t.writeDeletions L) = Except.error "changed during flush") ∧
    (t.deleting.isEmpty = false → (td = false ∨ hd t.deleting = []) →
      ∃ fr, RunList.sort L ⟨t.free.len, t.free.data ++ t.deleting.data⟩ = .ok fr ∧
      (if t.deleting.isEmpty then .ok t
        else if td then
          if (RunList.extend L .empty (hd t.deleting)).isEmpty then t.writeDeletions L
          else Except.error "changed during flush"
        else t.writeDeletions L)
        = Except.ok { t with free := fr, deleting := ⟨0, []⟩ }) := by
  refine ⟨?_, ?_, ?_⟩
  · intro h
    rw [if_pos h]
  · intro h1 h2 h3
    rw [if_neg (by simp [h1]), if_pos h2]
    rw [if_neg (by
      intro hc
      exact h3 ((RunList.extend_empty_isEmpty L _).mp hc))]
  · intro h1 h2
    obtain ⟨fr, hfr, hwd⟩ := writeDeletions_spec L t hfree hdel
    refine ⟨fr, hfr, ?_⟩
    rw [if_neg (by simp [h1])]
    rcases h2 with h2 | h2
    · rw [if_neg (by simp [h2])]
      exact hwd
    · by_cases htd : td = true
      · rw [if_pos htd, if_pos (by rw [h2]; rfl)]
        exact hwd
      · rw [if_neg htd]
        exact hwd

/-- Full behaviour of the embedded `flush`: the panic condition and the
success state, proved once and shared. -/
theorem flush_spec (L : Nat) (tp td : Bool)
    (hp : RunList → List Nat × List Nat) (hd : RunList → List Nat) (s : IdList)
    (hfree : ∀ p ∈ s.free.data, p.1 < L ∧ p.2 < L)
    (hdel : ∀ p ∈ s.deleting.data, p.1 < L ∧ p.2 < L)
    (hpids : ∀ x ∈ (hp s.pushing).2, x < L) :
    ((IdList.flush L tp td hp hd s = .error "changed during flush") ↔
      ((s.pushing.isEmpty = false ∧ tp = true ∧ (hp s.pushing).1 ≠ []) ∨
       ((IdList.deletingAtDeletePhase L tp hp s).isEmpty = false ∧ td = true ∧
         hd (IdList.deletingAtDeletePhase L tp hp s) ≠ []))) ∧
    (∀ u, IdList.flush L tp td hp hd s = .ok u →
      u.pushing.data = [] ∧ u.deleting.data = [] ∧
      ((IdList.deletingAtDeletePhase L tp hp s).isEmpty = false →
        RunList.sort L ⟨s.free.len,
          s.free.data ++ (IdList.deletingAtDeletePhase L tp hp s).data⟩ = .ok u.free) ∧
      ((IdList.deletingAtDeletePhase L tp hp s).isEmpty = true → u.free = s.free)) := by
  by_cases hpe : s.pushing.isEmpty = true
  · -- no push event at all
    have hpe2 : ¬ s.pushing.isEmpty = false := by simp [hpe]
    have hd1e : IdList.deletingAtDeletePhase L tp hp s = s.deleting := by
      unfold IdList.deletingAtDeletePhase
      rw [if_neg (by simp [hpe])]
    have hfl : IdList.flush L tp td hp hd s =
        (if s.deleting.isEmpty then .ok s
         else if td then
           if (RunList.extend L .empty (hd s.deleting)).isEmpty then s.writeDeletions L
           else Except.error "changed during flush"
         else s.writeDeletions L) := by
      unfold IdList.flush
      rw [if_pos hpe]
    have ph2 := flush_phase2_eval L td hd s hfree hdel
    rw [hfl, hd1e]
    constructor
    · constructor
      · intro herr
        by_cases hde : s.deleting.isEmpty = true
        · rw [ph2.1 hde] at herr
          exact absurd herr (by simp)
        · have hde2 : s.deleting.isEmpty = false := by
            revert hde; cases s.deleting.isEmpty <;> simp
          by_cases htd : td = true
          · by_cases hhd : hd s.deleting = []
            · obtain ⟨fr, _, heq⟩ := ph2.2.2 hde2 (Or.inr hhd)
              rw [heq] at herr
              exact absurd herr (by simp)
            · exact Or.inr ⟨hde2, htd, hhd⟩
          · obtain ⟨fr, _, heq⟩ := ph2.2.2 hde2
              (Or.inl (by revert htd; cases td <;> simp))
            rw [heq] at herr
            exact absurd herr (by simp)
      · rintro (⟨hc, _, _⟩ | ⟨hde, htd, hhd⟩)
        · exact absurd hc hpe2
        · exact ph2.2.1 hde htd hhd
    · intro u hu
      by_cases hde : s.deleting.isEmpty = true
      · rw [ph2.1 hde] at hu
        have hus : s = u := Except.ok.inj hu
        subst hus
        exact ⟨(RunList.isEmpty_iff_data_nil _).mp hpe,
          (RunList.isEmpty_iff_data_nil _).mp hde,
          fun hc => absurd hde (by simp [hc]), fun _ => rfl⟩
      · have hde2 : s.deleting.isEmpty = false := by
          revert hde; cases s.deleting.isEmpty <;> simp
        have hok : td = false ∨ hd s.deleting = [] := by
          by_cases htd : td = true
          · by_cases hhd : hd s.deleting = []
            · exact Or.inr hhd
            · exfalso
              rw [ph2.2.1 hde2 htd hhd] at hu
              exact absurd hu (by simp)
          · exact Or.inl (by revert htd; cases td <;> simp)
        obtain ⟨fr, hfr, heq⟩ := ph2.2.2 hde2 hok
        rw [heq] at hu
        have hus := Except.ok.inj hu
        subst hus
        exact ⟨(RunList.isEmpty_iff_data_nil _).mp hpe, rfl,
          fun _ => hfr, fun hc => absurd hc (by simp [hde2])⟩
  · -- the pushing list is non-empty
    have hpe2 : s.pushing.isEmpty = false := by
      revert hpe; cases s.pushing.isEmpty <;> simp
    by_cases htp : tp = true
    · by_cases hadd : (hp s.pushing).1 = []
      · -- push event runs and the handlers leave pushing empty
        set t1 : IdList := { s with pushing := (⟨0, []⟩ : RunList), deleting := RunList.extend L s.deleting (hp s.pushing).2 } with ht1
        have hd1e : IdList.deletingAtDeletePhase L tp hp s = t1.deleting := by
          unfold IdList.deletingAtDeletePhase
          rw [if_pos ⟨hpe2, htp⟩]
        have hfl : IdList.flush L tp td hp hd s =
            (if t1.deleting.isEmpty then .ok t1
             else if td then
               if (RunList.extend L .empty (hd t1.deleting)).isEmpty then
                 t1.writeDeletions L
               else Except.error "changed during flush"
             else t1.writeDeletions L) := by
          unfold IdList.flush
          rw [if_neg hpe, if_pos htp,
            if_pos ((RunList.extend_empty_isEmpty L _).mpr hadd)]
        have hdel2 : ∀ p ∈ t1.deleting.data, p.1 < L ∧ p.2 < L :=
          RunList.extend_dataBounded L _ s.deleting hdel hpids
        have ph2 := flush_phase2_eval L td hd t1 hfree hdel2
        rw [hfl, hd1e]
        constructor
        · constructor
          · intro herr
            by_cases hde : t1.deleting.isEmpty = true
            · rw [ph2.1 hde] at herr
              exact absurd herr (by simp)
            · have hde2 : t1.deleting.isEmpty = false := by
                revert hde
                cases t1.deleting.isEmpty <;> simp
              by_cases htd : td = true
              · by_cases hhd : hd t1.deleting = []
                · obtain ⟨fr, _, heq⟩ := ph2.2.2 hde2 (Or.inr hhd)
                  rw [heq] at herr
                  exact absurd herr (by simp)
                · exact Or.inr ⟨hde2, htd, hhd⟩
              · obtain ⟨fr, _, heq⟩ := ph2.2.2 hde2
                  (Or.inl (by revert htd; cases td <;> simp))
                rw [heq] at herr
                exact absurd herr (by simp)
          · rintro (⟨_, _, hc⟩ | ⟨hde, htd, hhd⟩)
            · exact absurd hadd hc
            · exact ph2.2.1 hde htd hhd
        · intro u hu
          by_cases hde : t1.deleting.isEmpty = true
          · rw [ph2.1 hde] at hu
            have hus := Except.ok.inj hu
            subst hus
            exact ⟨rfl, (RunList.isEmpty_iff_data_nil _).mp hde,
              fun hc => absurd hde (by simp [hc]), fun _ => rfl⟩
          · have hde2 : t1.deleting.isEmpty = false := by
              revert hde
              cases t1.deleting.isEmpty <;> simp
            have hok : td = false ∨ hd t1.deleting = [] := by
              by_cases htd : td = true
              · by_cases hhd : hd t1.deleting = []
                · exact Or.inr hhd
                · exfalso
                  rw [ph2.2.1 hde2 htd hhd] at hu
                  exact absurd hu (by simp)
              · exact Or.inl (by revert htd; cases td <;> simp)
            obtain ⟨fr, hfr, heq⟩ := ph2.2.2 hde2 hok
            rw [heq] at hu
            have hus := Except.ok.inj hu
            subst hus
            exact ⟨rfl, rfl, fun _ => hfr, fun hc => absurd hc (by simp [hde2])⟩
      · -- push event runs and the handlers re-filled pushing: panic
        have hfl : IdList.flush L tp td hp hd s = .error "changed during flush" := by
          unfold IdList.flush
          rw [if_neg hpe, if_pos htp, if_neg (by
            intro hc
            exact hadd ((RunList.extend_empty_isEmpty L _).mp hc))]
        rw [hfl]
        constructor
        · constructor
          · intro _
            exact Or.inl ⟨hpe2, htp, hadd⟩
          · intro _
            rfl
        · intro u hu
          exact absurd hu (by simp)
    · -- pushing non-empty but untracked: only cleared
      have htp2 : tp = false := by revert htp; cases tp <;> simp
      have hd1e : IdList.deletingAtDeletePhase L tp hp s = s.deleting := by
        unfold IdList.deletingAtDeletePhase
        rw [if_neg (by simp [htp2])]
      have hfl : IdList.flush L tp td hp hd s =
          (if s.deleting.isEmpty then
            .ok { s with pushing := (⟨0, []⟩ : RunList) }
           else if td then
             if (RunList.extend L .empty (hd s.deleting)).isEmpty then
               IdList.writeDeletions L { s with pushing := (⟨0, []⟩ : RunList) }
             else Except.error "changed during flush"
           else IdList.writeDeletions L { s with pushing := (⟨0, []⟩ : RunList) }) := by
        unfold IdList.flush
        rw [if_neg hpe, if_neg htp]
      have ph2 := flush_phase2_eval L td hd { s with pushing := (⟨0, []⟩ : RunList) }
        hfree hdel
      rw [hfl, hd1e]
      constructor
      · constructor
        · intro herr
          by_cases hde : s.deleting.isEmpty = true
          · rw [ph2.1 hde] at herr
            exact absurd herr (by simp)
          · have hde2 : s.deleting.isEmpty = false := by
              revert hde; cases s.deleting.isEmpty <;> simp
            by_cases htd : td = true
            · by_cases hhd : hd s.deleting = []
              · obtain ⟨fr, _, heq⟩ := ph2.2.2 hde2 (Or.inr hhd)
                rw [heq] at herr
                exact absurd herr (by simp)
              · exact Or.inr ⟨hde2, htd, hhd⟩
            · obtain ⟨fr, _, heq⟩ := ph2.2.2 hde2
                (Or.inl (by revert htd; cases td <;> simp))
              rw [heq] at herr
              exact absurd herr (by simp)
        · rintro (⟨_, hc, _⟩ | ⟨hde, htd, hhd⟩)
          · exact absurd hc (by simp [htp2])
          · exact ph2.2.1 hde htd hhd
      · intro u hu
        by_cases hde : s.deleting.isEmpty = true
        · rw [ph2.1 hde] at hu
          have hus := Except.ok.inj hu
          subst hus
          exact ⟨rfl, (RunList.isEmpty_iff_data_nil _).mp hde,
            fun hc => absurd hde (by simp [hc]), fun _ => rfl⟩
        · have hde2 : s.deleting.isEmpty = false := by
            revert hde; cases s.deleting.isEmpty <;> simp
          have hok : td = false ∨ hd s.deleting = [] := by
            by_cases htd : td = true
            · by_cases hhd : hd s.deleting = []
              · exact Or.inr hhd
              · exfalso
                rw [ph2.2.1 hde2 htd hhd] at hu
                exact absurd hu (by simp)
            · exact Or.inl (by revert htd; cases td <;> simp)
          obtain ⟨fr, hfr, heq⟩ := ph2.2.2 hde2 hok
          rw [heq] at hu
          have hus := Except.ok.inj hu
          subst hus
          exact ⟨rfl, rfl, fun _ => hfr, fun hc => absurd hc (by simp [hde2])⟩

/-- C5.  `IdList::flush` panics with "changed during flush" exactly when an
event handler adds entries to this table's `pushing` list while the `Pushed`
event is being processed, or to this table's `deleting` list while the
`Deleted` event is being processed; when it does not panic, it merges the
delete-phase `deleting` list into `free`, sorts `free`, and leaves both
`pushing` and `deleting` empty. -/
theorem flush_changed_iff_and_merges (L : Nat) (tp td : Bool)
    (hp : RunList → List Nat × List Nat) (hd : RunList → List Nat) (s : IdList)
    (hfree : ∀ p ∈ s.free.data, p.1 < L ∧ p.2 < L)
    (hdel : ∀ p ∈ s.deleting.data, p.1 < L ∧ p.2 < L)
    (hpids : ∀ x ∈ (hp s.pushing).2, x < L) :
    ((IdList.flush L tp td hp hd s = .error "changed during flush") ↔
      ((s.pushing.isEmpty = false ∧ tp = true ∧ (hp s.pushing).1 ≠ []) ∨
       ((IdList.deletingAtDeletePhase L tp hp s).isEmpty = false ∧ td = true ∧
         hd (IdList.deletingAtDeletePhase L tp hp s) ≠ []))) ∧
    (∀ u, IdList.flush L tp td hp hd s = .ok u →
      u.pushing.data = [] ∧ u.deleting.data = [] ∧
      ((IdList.deletingAtDeletePhase L tp hp s).isEmpty = false →
        RunList.sort L ⟨s.free.len,
          s.free.data ++ (IdList.deletingAtDeletePhase L tp hp s).data⟩ = .ok u.free) ∧
      ((IdList.deletingAtDeletePhase L tp hp s).isEmpty = true → u.free = s.free)) :=
  flush_spec L tp td hp hd s hfree hdel hpids

/-- Concrete instantiation of `flush_changed_iff_and_merges`: a flush whose
push handler deletes id 7 from the same table succeeds, merges `{7}` into the
empty free list and leaves both staging lists empty; while a delete handler
that adds the id 8 to `deleting` makes flush panic. -/
theorem flush_changed_iff_and_merges_witness :
    (IdList.flush 255 true true (fun _ => ([], [7])) (fun _ => [])
        ⟨.empty, ⟨1, [(0, 0)]⟩, .empty, 1⟩ ≠ .error "changed during flush") ∧
    (IdList.flush 255 true true (fun _ => ([], [])) (fun _ => [8])
        ⟨.empty, ⟨1, [(0, 0)]⟩, ⟨1, [(5, 5)]⟩, 1⟩ = .error "changed during flush") := by
  constructor
  · have h := (flush_changed_iff_and_merges 255 true true (fun _ => ([], [7]))
      (fun _ => []) ⟨.empty, ⟨1, [(0, 0)]⟩, .empty, 1⟩
      (by decide) (by decide) (by decide)).1
    intro hc
    have := h.mp hc
    revert this
    decide
  · exact (flush_changed_iff_and_merges 255 true true (fun _ => ([], []))
      (fun _ => [8]) ⟨.empty, ⟨1, [(0, 0)]⟩, ⟨1, [(5, 5)]⟩, 1⟩
      (by decide) (by decide) (by decide)).1.mpr (by decide)

/-- C9 counterexample.  The `removing()` iterator does not consult `deleting`:
on an `IdList` with capacity 3, empty free list and `deleting = {1}`, it
yields `[0, 1, 2]`, including the id 1 that is already marked for deletion in
the same pre-flush window. -/
theorem removing_yields_already_deleting_id :
    (IdList.removingIds ⟨.empty, .empty, ⟨1, [(1, 1)]⟩, 3⟩) = [0, 1, 2] ∧
    1 ∈ (RunList.iter ⟨1, [(1, 1)]⟩) := by
  decide

/-- C9 (amended).  When the free list iterates in ascending order (as after
every flush, which sorts it), the `removing()` iterator yields exactly the ids
in `0..outer_capacity` that are not in `free`, in ascending order and each
exactly once, regardless of what `deleting` holds — ids currently in
`deleting`, or marked deleted through the handles during the iteration, are
not skipped (only `free` is consulted). -/
theorem removing_iter_characterization (s : IdList)
    (hs : s.free.iter.Sorted (· ≤ ·)) :
    s.removingIds = (List.range s.outerCapacity).filter (fun x => x ∉ s.free.iter) ∧
    s.removingIds.Nodup ∧
    (∀ d : RunList, IdList.removingIds ⟨s.free, s.pushing, d, s.outerCapacity⟩
      = s.removingIds) := by
  have h1 : s.removingIds
      = (List.range s.outerCapacity).filter (fun x => x ∉ s.free.iter) := by
    unfold IdList.removingIds
    rw [ciCollectAux_filter s.outerCapacity 0 s.free.iter hs, List.range_eq_range']
  refine ⟨h1, ?_, ?_⟩
  · rw [h1]
    exact (List.nodup_range _).filter _
  · intro d
    rfl

/-- Concrete instantiation of `removing_iter_characterization`: capacity 5
with free list `{1, 2}` yields `[0, 3, 4]`, without duplicates. -/
theorem removing_iter_characterization_witness :
    IdList.removingIds ⟨⟨2, [(1, 2)]⟩, .empty, .empty, 5⟩ = [0, 3, 4] ∧
    (IdList.removingIds ⟨⟨2, [(1, 2)]⟩, .empty, .empty, 5⟩).Nodup := by
  have h := removing_iter_characterization ⟨⟨2, [(1, 2)]⟩, .empty, .empty, 5⟩
    (by decide)
  refine ⟨?_, h.2.1⟩
  rw [h.1]
  decide

/-- Embedding of `ColumnIndex::full_range(fid)` applied to the model index, a
list of `(foreign raw id, local raw id)` entries standing for the keys of the
`BTreeMap<(Id<FM>, Id<LM>), ()>` (src/linkage.rs:27-39): the BTreeMap `range`
over `(fid, ZERO)..(fid, LAST)` keeps exactly the entries lexicographically
at least `(fid, 0)` and strictly below `(fid, LAST)`. -/
def indexFullRange (L : Nat) (index : List (Nat × Nat)) (fid : Nat) :
    List (Nat × Nat) :=
  index.filter fun p =>
    (fid < p.1 ∨ (fid = p.1 ∧ 0 ≤ p.2)) ∧ (p.1 < fid ∨ (p.1 = fid ∧ p.2 < L))

theorem mem_indexFullRange (L : Nat) (index : List (Nat × Nat)) (fid : Nat)
    (p : Nat × Nat) :
    p ∈ indexFullRange L index fid ↔ p ∈ index ∧ p.1 = fid ∧ p.2 < L := by
  unfold indexFullRange
  rw [List.mem_filter]
  simp only [decide_eq_true_eq]
  constructor
  · rintro ⟨h1, h2⟩
    exact ⟨h1, by omega, by omega⟩
  · rintro ⟨h1, h2, h3⟩
    exact ⟨h1, by omega, by omega⟩

/-- Embedding of the cascade `Deleted<FM>` handler installed by
`Id::__v9_link_foreign_key` (src/linkage.rs:199-214): for every foreign id of
the event, the matching local ids are drawn from the index and appended to
the local `IdList`'s `deleting` list via `delete_extend` (repeated
`RunList::push`). -/
def cascadeDeleteHandler (L : Nat) (index : List (Nat × Nat)) (evIds : List Nat)
    (list : IdList) : IdList :=
  { list with deleting := RunList.extend L list.deleting (evIds.flatMap fun fid => (indexFullRange L index fid).map Prod.snd) }

theorem iter_ne_nil_isEmpty_false {s : RunList} {x : Nat} (h : x ∈ s.iter) :
    s.isEmpty = false := by
  unfold RunList.isEmpty
  unfold RunList.iter at h
  match hd : s.data with
  | [] =>
    rw [hd] at h
    simp at h
  | p :: ps => rfl

/-- C3.  If the index is complete for the live rows of the local table (every
live row's foreign-key value appears in the index with its row id), then
after the cascade `Deleted<FM>` handler runs for the deleted foreign ids and
the local table's `flush` succeeds, no live local row references a deleted
foreign id: every such row id was appended to `deleting` by the handler and
merged into `free` by the flush. -/
theorem cascade_delete_removes_referencing_rows (L : Nat)
    (index : List (Nat × Nat)) (evIds : List Nat) (col : List Nat)
    (s : IdList) (tp td : Bool) (hp : RunList → List Nat × List Nat)
    (hd : RunList → List Nat) (u : IdList)
    (hcap : s.outerCapacity ≤ L)
    (hfree : ∀ p ∈ s.free.data, p.1 < L ∧ p.2 < L)
    (hdel : ∀ p ∈ s.deleting.data, p.1 < L ∧ p.2 < L)
    (hpids : ∀ x ∈ (hp (cascadeDeleteHandler L index evIds s).pushing).2, x < L)
    (hcomplete : ∀ lid, lid < s.outerCapacity → lid ∉ s.free.iter →
      (col.getD lid 0, lid) ∈ index)
    (hflush : IdList.flush L tp td hp hd (cascadeDeleteHandler L index evIds s)
      = .ok u) :
    ∀ lid, lid < s.outerCapacity → lid ∉ u.free.iter → col.getD lid 0 ∉ evIds := by
  intro lid hlt hnotfree hev
  -- abbreviations
  have hadds : ∀ x ∈ (evIds.flatMap fun fid =>
      (indexFullRange L index fid).map Prod.snd), x < L := by
    intro x hx
    rcases List.mem_flatMap.mp hx with ⟨fid, _, hx⟩
    rcases List.mem_map.mp hx with ⟨p, hp', rfl⟩
    exact ((mem_indexFullRange L index fid p).mp hp').2.2
  have hdel2 : ∀ p ∈ (cascadeDeleteHandler L index evIds s).deleting.data,
      p.1 < L ∧ p.2 < L :=
    RunList.extend_dataBounded L _ s.deleting hdel hadds
  have hfsucc := (flush_spec L tp td hp hd
    (cascadeDeleteHandler L index evIds s) hfree hdel2 hpids).2 u hflush
  obtain ⟨-, -, hsorteq, hsame⟩ := hfsucc
  -- the delete-phase deleting list
  have hd1mono : ∀ x, x ∈ (cascadeDeleteHandler L index evIds s).deleting.iter →
      x ∈ (IdList.deletingAtDeletePhase L tp hp
        (cascadeDeleteHandler L index evIds s)).iter := by
    intro x hx
    unfold IdList.deletingAtDeletePhase
    by_cases hc : (cascadeDeleteHandler L index evIds s).pushing.isEmpty = false
      ∧ tp = true
    · rw [if_pos hc]
      have hb : RunList.Bounded L (cascadeDeleteHandler L index evIds s).deleting := by
        intro y hy
        exact Nat.le_of_lt
          ((RunList.dataBounded_iff_iter_lt L _).mp hdel2 y hy)
      refine (RunList.mem_extend_iff L _ _ hb
        (fun y hy => Nat.le_of_lt (hpids y hy)) x).mpr (Or.inr hx)
    · rw [if_neg hc]
      exact hx
  -- membership facts about the sorted merged free list
  have hmerge : ∀ x, x ∈ (IdList.deletingAtDeletePhase L tp hp
        (cascadeDeleteHandler L index evIds s)).iter ∨ x ∈ s.free.iter →
      x ∈ u.free.iter := by
    intro x hx
    have hd1ne : (IdList.deletingAtDeletePhase L tp hp
        (cascadeDeleteHandler L index evIds s)).isEmpty = false ∨
        x ∈ s.free.iter := by
      rcases hx with hx | hx
      · exact Or.inl (iter_ne_nil_isEmpty_false hx)
      · exact Or.inr hx
    by_cases hde : (IdList.deletingAtDeletePhase L tp hp
        (cascadeDeleteHandler L index evIds s)).isEmpty = false
    · have heq := hsorteq hde
      have hbdm : ∀ p ∈ (⟨(cascadeDeleteHandler L index evIds s).free.len,
          (cascadeDeleteHandler L index evIds s).free.data ++
          (IdList.deletingAtDeletePhase L tp hp
            (cascadeDeleteHandler L index evIds s)).data⟩ : RunList).data,
          p.1 < L ∧ p.2 < L := by
        intro p hp'
        rcases List.mem_append.mp hp' with hp' | hp'
        · exact hfree p hp'
        · -- the delete-phase deleting list is data-bounded
          revert hp'
          unfold IdList.deletingAtDeletePhase
          by_cases hc : (cascadeDeleteHandler L index evIds s).pushing.isEmpty = false
            ∧ tp = true
          · rw [if_pos hc]
            intro hp'
            exact RunList.extend_dataBounded L _ _ hdel2
              (fun y hy => hpids y hy) p hp'
          · rw [if_neg hc]
            intro hp'
            exact hdel2 p hp'
      obtain ⟨w, hw, -, -, -, -, hwmem⟩ := RunList.sort_spec L _ hbdm
      have hweq : w = u.free := by
        have := hw.symm.trans heq
        exact Except.ok.inj this
      subst hweq
      refine (hwmem x).mpr ?_
      simp only [RunList.iter, List.flatMap_append, List.mem_append]
      rcases hx with hx | hx
      · exact Or.inr hx
      · exact Or.inl hx
    · -- the merged list is empty: x must come from free
      rcases hd1ne with hc | hx2
      · exact absurd hc hde
      · have hdeT : (IdList.deletingAtDeletePhase L tp hp
            (cascadeDeleteHandler L index evIds s)).isEmpty = true := by
          revert hde
          cases (IdList.deletingAtDeletePhase L tp hp
            (cascadeDeleteHandler L index evIds s)).isEmpty <;> simp
        rw [hsame hdeT]
        exact hx2
  by_cases hfreeOld : lid ∈ s.free.iter
  · exact hnotfree (hmerge lid (Or.inr hfreeOld))
  · -- the row was live before the cascade, so the index knows it
    have hidx := hcomplete lid hlt hfreeOld
    have hlidL : lid < L := by omega
    have hladd : lid ∈ (evIds.flatMap fun fid =>
        (indexFullRange L index fid).map Prod.snd) := by
      refine List.mem_flatMap.mpr ⟨col.getD lid 0, hev, ?_⟩
      refine List.mem_map.mpr ⟨(col.getD lid 0, lid), ?_, rfl⟩
      exact (mem_indexFullRange L index (col.getD lid 0) _).mpr ⟨hidx, rfl, hlidL⟩
    have hb : RunList.Bounded L s.deleting := by
      intro y hy
      exact Nat.le_of_lt ((RunList.dataBounded_iff_iter_lt L _).mp hdel y hy)
    have hindel : lid ∈ (cascadeDeleteHandler L index evIds s).deleting.iter :=
      (RunList.mem_extend_iff L _ s.deleting hb
        (fun y hy => Nat.le_of_lt (hadds y hy)) lid).mpr (Or.inl hladd)
    exact hnotfree (hmerge lid (Or.inl (hd1mono lid hindel)))

/-- Concrete instantiation of `cascade_delete_removes_referencing_rows`: two
local rows referencing foreign ids 0 and 1; deleting foreign id 1 cascades
row 1 into `deleting`, and after the flush the surviving live row 0 does not
reference the deleted id. -/
theorem cascade_delete_removes_referencing_rows_witness :
    (List.getD [0, 1] 0 0) ∉ [1] :=
  cascade_delete_removes_referencing_rows 255 [(0, 0), (1, 1)] [1] [0, 1]
    ⟨.empty, .empty, .empty, 2⟩ false false (fun _ => ([], [])) (fun _ => [])
    ⟨⟨1, [(1, 1)]⟩, .empty, .empty, 2⟩
    (by decide) (by decide) (by decide) (by decide) (by decide) rfl
    0 (by decide) (by decide)

/-- C10.  For every `IdList`, `next()` returns exactly the id that the
immediately following `recycle_id()` hands out: when `free` is non-empty it is
the id `free.pop()` removes, which is the maximum of the last stored pair of
`free`, and when `free` is empty it is `Id(outer_capacity)`. -/
theorem next_eq_recycle_id (L : Nat) (s : IdList) :
    s.next = (s.recycleId L).1 ∧
    s.next = (match s.free.data.getLast? with
              | some p => max p.1 p.2
              | none => s.outerCapacity) := by
  unfold IdList.next IdList.recycleId RunList.pop RunList.last
  match h : s.free.data.getLast? with
  | none => simp [h]
  | some (a, b) =>
    simp only [h, Option.map_some]
    rcases Nat.lt_trichotomy a b with hab | hab | hab
    · have : ¬ a > b := by omega
      simp [hab, this, Nat.max_eq_right (Nat.le_of_lt hab), Nat.ne_of_lt hab]
    · subst hab
      simp [Nat.lt_irrefl]
    · simp [hab, Nat.lt_asymm hab, Nat.max_eq_left (Nat.le_of_lt hab)]

/-- Reference target returned by `EditColumn::index_mut`: either a direct
`&mut` into the column's vector (untracked case) or a `&mut` into the value of
the last log entry (`self.log.last_mut()`). -/
inductive EditRef where
  | colSlot (i : Nat)
  | logSlot
deriving DecidableEq, Repr

/-- Embedding of the `EditColumn` view (src/column.rs:51-59): the column data,
the `(id, value)` edit log, and the `must_log` flag (set when an
`Edited<M, T>` tracker is registered). -/
structure EditColumn (T : Type) where
  data : List T
  log : List (Nat × T)
  mustLog : Bool

/-- Embedding of `EditColumn::index_mut` (src/column.rs:124-154).  The id is
bounds-checked (`check_from_len` panics on OOB); an untracked column is
mutated in place; a tracked column compares the id with the last logged id:
on `Less` it panics with "disordered column access", on `Equal` it returns the
existing last log slot, on `Greater` (also when the log is empty) it clones
the stored value into the log and returns that freshly pushed slot. -/
def EditColumn.indexMut {T : Type} [Inhabited T] (c : EditColumn T) (i : Nat) :
    Except String (EditColumn T × EditRef) :=
  if i < c.data.length then
    if c.mustLog = false then .ok (c, .colSlot i)
    else
      let cmp : Ordering :=
        match c.log.getLast? with
        | none => .gt
        | some (p, _) => compare i p
      match cmp with
      | .lt => .error "disordered column access"
      | .eq => .ok (c, .logSlot)
      | .gt => .ok ({ c with log := c.log ++ [(i, c.data.getD i default)] }, .logSlot)
  else .error "OOB"

/-- C6.  On a tracked `Edit` view whose log ends with id `p`: `index_mut(i)`
with `p < i` clones the stored value into the log and returns a reference to
the freshly pushed log slot; with `i = p` it returns the existing last log
slot and leaves the log unchanged; with `i < p` it panics with "disordered
column access".  On an untracked column it returns a direct reference into
the column with no log entry and no ordering check. -/
theorem edit_column_index_mut_cases {T : Type} [Inhabited T] (c : EditColumn T)
    (i p : Nat) (v : T) (hi : i < c.data.length) :
    (c.mustLog = true → c.log.getLast? = some (p, v) →
      ((p < i → c.indexMut i =
          .ok ({ c with log := c.log ++ [(i, c.data.getD i default)] }, .logSlot)) ∧
       (i = p → c.indexMut i = .ok (c, .logSlot)) ∧
       (i < p → c.indexMut i = .error "disordered column access"))) ∧
    (c.mustLog = false → c.indexMut i = .ok (c, .colSlot i)) := by
  constructor
  · intro hml hlast
    refine ⟨?_, ?_, ?_⟩
    · intro hpi
      simp [EditColumn.indexMut, hi, hml, hlast, Nat.compare_eq_gt.mpr hpi]
    · intro hip
      subst hip
      simp [EditColumn.indexMut, hi, hml, hlast, Nat.compare_eq_eq.mpr rfl]
    · intro hip
      simp [EditColumn.indexMut, hi, hml, hlast, Nat.compare_eq_lt.mpr hip]
  · intro hml
    simp [EditColumn.indexMut, hi, hml]

/-- Concrete instantiation of `edit_column_index_mut_cases`: on the tracked
column `[10, 20, 30]` with log `[(1, 99)]`, writing to id 2 pushes the clone
`(2, 30)`, writing to id 1 reuses the logged slot, and writing to id 0 panics. -/
theorem edit_column_index_mut_cases_witness :
    (EditColumn.indexMut ⟨[10, 20, 30], [(1, 99)], true⟩ 2 =
      .ok (⟨[10, 20, 30], [(1, 99), (2, 30)], true⟩, .logSlot)) ∧
    (EditColumn.indexMut ⟨[10, 20, 30], [(1, 99)], true⟩ 1 =
      .ok (⟨[10, 20, 30], [(1, 99)], true⟩, .logSlot)) ∧
    (EditColumn.indexMut ⟨[10, 20, 30], [(1, 99)], true⟩ 0 =
      .error "disordered column access") := by
  have h2 := edit_column_index_mut_cases (⟨[10, 20, 30], [(1, 99)], true⟩ : EditColumn Nat)
    2 1 99 (by decide)
  have h1 := edit_column_index_mut_cases (⟨[10, 20, 30], [(1, 99)], true⟩ : EditColumn Nat)
    1 1 99 (by decide)
  have h0 := edit_column_index_mut_cases (⟨[10, 20, 30], [(1, 99)], true⟩ : EditColumn Nat)
    0 1 99 (by decide)
  refine ⟨?_, ?_, ?_⟩
  · exact (h2.1 rfl rfl).1 (by decide)
  · exact (h1.1 rfl rfl).2.1 rfl
  · exact (h0.1 rfl rfl).2.2 (by decide)

end V9
